import Mathlib

/-!
Verification development for the `lm_desktop_assistant.py` streaming chat
client.  The Python source is embedded shallowly: pure string transforms
become Lean functions on `List Char` / `String`, the stream worker's
network loop becomes a function from an explicit connection model to the
list of Qt signals it emits, and the window's state mutations become
functions on an explicit state record.
-/

/-! ## Python string helpers -/

/-- Python whitespace, as used by `str.strip()` and the regex class `\s`
on `str` patterns: the ASCII whitespace characters, the C1 controls
`\x85`/`\xa0`, the information separators `\x1c`-`\x1f`, and the Unicode
space characters. -/
def isPyWS (c : Char) : Bool :=
  c = ' ' || c = '\t' || c = '\n' || c = '\x0b' || c = '\x0c' || c = '\r' ||
  c = '\x1c' || c = '\x1d' || c = '\x1e' || c = '\x1f' ||
  c = '\x85' || c = '\xa0' || c = '\u1680' ||
  (('\u2000' ≤ c) && (c ≤ '\u200a')) || c = '\u2028' || c = '\u2029' ||
  c = '\u202f' || c = '\u205f' || c = '\u3000'

/-- Python `str.strip()` on a character list: drop whitespace from both ends. -/
def pyStripList (cs : List Char) : List Char :=
  ((cs.dropWhile isPyWS).reverse.dropWhile isPyWS).reverse

/-- Python `str.strip()`. -/
def pyStrip (s : String) : String :=
  String.mk (pyStripList s.data)

/-! ## StreamWorker.run

`StreamWorker.run` posts the request and then iterates over the response
lines, emitting Qt signals.  The embedding models the `requests` call as
an explicit `ConnResult` (exception, or a status code with a body and a
list of frames), where a frame is either a decoded line or an exception
raised by the line iterator mid-stream.  The JSON parse
(`json.loads` followed by the two `chunk.get(...)` extraction chains,
whose failures are caught and yield `""`) is abstracted as a function
`parse : String → Option ChunkFields`; `none` models a `json.loads`
failure.  The cooperative stop flag is modelled as a predicate on the
frame index at which it is checked. -/

/-- One emitted Qt signal of `StreamWorker`. -/
inductive StreamEvent where
  | update (text : String)
  | progress (value : Nat)
  | error (message : String)
  | finished
deriving DecidableEq, Repr

/-- The two content fields `choices[0].delta.content` and
`choices[0].message.content` extracted from a parsed chunk; each is `""`
when absent or when the extraction raised (the source catches those
exceptions and substitutes `""`). -/
structure ChunkFields where
  deltaContent : String
  messageContent : String

/-- One item produced by `resp.iter_lines`: either a raw line (already
decoded; the source's decode fallback never raises) or an exception
raised by the iterator, which the outer `try` of the loop catches. -/
inductive Frame where
  | line (raw : String)
  | exn (msg : String)

/-- Result of `requests.post`: an exception, or a response carrying an
HTTP status, the body text used in the error message, and the streamed
frames. -/
inductive ConnResult where
  | requestError (msg : String)
  | response (status : Nat) (body : String) (frames : List Frame)

/-- `text_piece` extraction: the delta field, falling back to the message
field when the delta field is falsy (empty). -/
def extractPiece (c : ChunkFields) : String :=
  if c.deltaContent ≠ "" then c.deltaContent else c.messageContent

/-- Progress estimate `min(100, int(token_count / 1024 * 100))`; in exact
arithmetic `int(tc / 1024 * 100) = tc * 100 / 1024` (floor division). -/
def progressOf (tokenCount : Nat) : Nat :=
  min 100 (tokenCount * 100 / 1024)

/-- SSE unwrapping of a stripped line: if it starts with `data:`, strip
the marker and strip the remainder; otherwise the whole line is the
payload. -/
def lineContent (line : String) : String :=
  if line.startsWith "data:" then pyStrip (String.mk (line.data.drop 5)) else line

/-- The `for raw_line in resp.iter_lines(...)` loop of `StreamWorker.run`.
Arguments: the abstracted JSON parse, the stop flag as seen at each frame
index, the remaining frames, the current frame index, and the running
`token_count`.  Returns the emitted signals of the loop (the trailing
`finish_signal` of the `finally` block is appended by `StreamWorker.run`). -/
def streamLoop (parse : String → Option ChunkFields) (stop : Nat → Bool) :
    List Frame → Nat → Nat → List StreamEvent
  | [], _, _ => []
  | .exn m :: _, _, _ => [.error ("流处理出错: " ++ m)]
  | .line raw :: rest, idx, tc =>
    if stop idx then []
    else if raw = "" then streamLoop parse stop rest (idx + 1) tc
    else
      let content := lineContent (pyStrip raw)
      if content = "[DONE]" then []
      else
        match parse content with
        | none => .update content :: streamLoop parse stop rest (idx + 1) tc
        | some ch =>
          let piece := extractPiece ch
          if piece = "" then streamLoop parse stop rest (idx + 1) tc
          else
            .update piece ::
            .progress (progressOf (tc + piece.length)) ::
            streamLoop parse stop rest (idx + 1) (tc + piece.length)

/-- `StreamWorker.run`: request failure and non-200 status emit an error
then the finish signal; otherwise the line loop runs and the `finally`
block emits the finish signal at every exit of the loop. -/
def streamRun (parse : String → Option ChunkFields) (stop : Nat → Bool) :
    ConnResult → List StreamEvent
  | .requestError e => [.error ("请求失败: " ++ e), .finished]
  | .response status body frames =>
    if status ≠ 200 then [.error ("HTTP " ++ toString status ++ ": " ++ body), .finished]
    else streamLoop parse stop frames 0 0 ++ [.finished]

/-- The progress values of an emitted signal sequence, in order. -/
def progressValues (evs : List StreamEvent) : List Nat :=
  evs.filterMap fun e =>
    match e with
    | .progress v => some v
    | _ => none

/-! ## ResponsePostProcessor: `_strip_role_prefixes`

The source applies
`re.sub(r'^\s*(AI：|AI:|助手：|助手:|assistant：|assistant:|用户：|User:)\s*', '', text, flags=re.I)`.
With the pattern anchored at the string start and `re.I`, this removes at
most one leading run of whitespace, one case-insensitive role label, and
the following run of whitespace; a string with no such leading label is
returned unchanged. -/

/-- The role-label alternatives, in the order the regex tries them. -/
def roleLabels : List String :=
  ["AI：", "AI:", "助手：", "助手:", "assistant：", "assistant:", "用户：", "User:"]

/-- Case-insensitive prefix test (ASCII case folding, as `re.I` applies
to the ASCII letters of the labels). -/
def matchLabelCI (label : List Char) (cs : List Char) : Bool :=
  (cs.take label.length).map Char.toLower = label.map Char.toLower

/-- `AIAssistantWindow._strip_role_prefixes`. -/
def strip_role_prefixes (text : String) : String :=
  if text = "" then text
  else
    let rest := text.data.dropWhile isPyWS
    match roleLabels.find? (fun l => matchLabelCI l.data rest) with
    | some l => String.mk ((rest.drop l.data.length).dropWhile isPyWS)
    | none => text

/-- Does the text begin, after optional leading whitespace, with one of
the role labels (case-insensitively)? -/
def startsWithRoleLabel (text : String) : Bool :=
  roleLabels.any fun l => matchLabelCI l.data (text.data.dropWhile isPyWS)

/-! ## ResponsePostProcessor: `_collapse_consecutive_sentences` -/

/-- The sentence-delimiter class `[。！？\n]` of the split pattern. -/
def isSentenceDelim (c : Char) : Bool :=
  c = '。' || c = '！' || c = '？' || c = '\n'

/-- `re.split(r'([。！？\n]+)', text)`, with the alternating
segment/delimiter-run parts paired up the way the source's
`for i in range(0, len(parts), 2)` loop consumes them: each pair is
`(parts[i], parts[i+1])`, the final pair having an empty delimiter.
The accumulators hold the current segment and delimiter run reversed. -/
def sentencePairsGo : List Char → List Char → List Char → List (List Char × List Char)
  | segAcc, [], [] => [(segAcc.reverse, [])]
  | segAcc, d :: ds, [] => [(segAcc.reverse, (d :: ds).reverse), ([], [])]
  | segAcc, [], c :: cs =>
    if isSentenceDelim c then sentencePairsGo segAcc [c] cs
    else sentencePairsGo (c :: segAcc) [] cs
  | segAcc, d :: ds, c :: cs =>
    if isSentenceDelim c then sentencePairsGo segAcc (c :: d :: ds) cs
    else (segAcc.reverse, (d :: ds).reverse) :: sentencePairsGo [c] [] cs

/-- The body of the source's loop: `full = (sent.strip() + delim).strip()`,
empty units are skipped, a unit equal to the previously kept unit
(`seq[-1]`) is skipped, all other units are appended to `seq`. -/
def collapseGo : List (List Char × List Char) → Option (List Char) → List (List Char)
  | [], _ => []
  | (seg, delim) :: ps, lastKept =>
    let full := pyStripList (pyStripList seg ++ delim)
    if full = [] then collapseGo ps lastKept
    else if lastKept = some full then collapseGo ps lastKept
    else full :: collapseGo ps (some full)

/-- `AIAssistantWindow._collapse_consecutive_sentences`: split into
sentence units keeping the delimiter run with the preceding unit, strip
each unit, drop empty units and units equal to the previously kept unit,
and join the kept units. -/
def collapse_consecutive_sentences (text : String) : String :=
  if text = "" then text
  else String.mk (List.flatten (collapseGo (sentencePairsGo [] [] text.data) none))

/-! ## ConversationLog: the history effect of `on_stream_finish`

`on_stream_finish` computes
`final = collapse(strip_role(current_ai_buffer.strip()))` and appends an
assistant turn to `self.history` only when `final` is non-empty and
differs from the stripped content of the most recent assistant turn.
The display manipulation is out of scope here; the embedding captures the
function's effect on `self.history`. -/

/-- One entry of `self.history`. -/
structure ChatMsg where
  role : String
  content : String
deriving DecidableEq, Repr

/-- The most recent assistant turn of the history
(`for msg in reversed(self.history): if msg.get("role") == "assistant"`). -/
def lastAssistantMsg (history : List ChatMsg) : Option ChatMsg :=
  history.reverse.find? fun m => m.role = "assistant"

/-- The post-processed final text of a session:
`final = self._collapse_consecutive_sentences(self._strip_role_prefixes((buffer or "").strip()))`. -/
def finalText (buffer : String) : String :=
  collapse_consecutive_sentences (strip_role_prefixes (pyStrip buffer))

/-- The effect of `AIAssistantWindow.on_stream_finish` on `self.history`:
append one assistant turn carrying `finalText buffer`, unless that text
is empty or equals the stripped content of the most recent assistant
turn. -/
def on_stream_finish_history (history : List ChatMsg) (buffer : String) : List ChatMsg :=
  let final := finalText buffer
  if final ≠ "" then
    if (lastAssistantMsg history).map (fun m => pyStrip m.content) = some final then history
    else history ++ [⟨"assistant", final⟩]
  else history

/-- A list neither starting nor ending in Python whitespace. -/
def NoWSEnds (l : List Char) : Prop :=
  (∀ c, l.head? = some c → isPyWS c = false) ∧
    (∀ c, l.getLast? = some c → isPyWS c = false)

/-! ## Model discovery: `fetch_models_from_api`

The body of the `/v1/models` response is modelled as a JSON value; the
whole fetch is a function from the request outcome (exception, or status
plus an optionally-parseable body) to the returned model list.  Python
values appended to `models` can be any JSON value (`item.get("id")` need
not be a string), so the result is a list of JSON values; the key
fallback appends `str(k)` i.e. a string. -/

/-- A JSON value as produced by `resp.json()`. -/
inductive JVal where
  | jnull
  | jbool (b : Bool)
  | jnum (n : Int)
  | jstr (s : String)
  | jarr (items : List JVal)
  | jobj (fields : List (String × JVal))

mutual

/-- Structural equality of JSON values, as Python `==` compares the
values appended to the model list (dict comparison is modelled
order-sensitively; the extracted model values are strings in practice). -/
def jvalEq : JVal → JVal → Bool
  | .jnull, .jnull => true
  | .jbool a, .jbool b => a == b
  | .jnum a, .jnum b => a == b
  | .jstr a, .jstr b => a == b
  | .jarr a, .jarr b => jvalListEq a b
  | .jobj a, .jobj b => jvalFieldsEq a b
  | _, _ => false

/-- Elementwise equality of JSON lists. -/
def jvalListEq : List JVal → List JVal → Bool
  | [], [] => true
  | x :: xs, y :: ys => jvalEq x y && jvalListEq xs ys
  | _, _ => false

/-- Elementwise equality of JSON object fields. -/
def jvalFieldsEq : List (String × JVal) → List (String × JVal) → Bool
  | [], [] => true
  | (k1, v1) :: xs, (k2, v2) :: ys => k1 == k2 && jvalEq v1 v2 && jvalFieldsEq xs ys
  | _, _ => false

end
/-- Python truthiness of a JSON value (`if name:` and the `or` chain). -/
def jTruthy : JVal → Bool
  | .jnull => false
  | .jbool b => b
  | .jnum n => n != 0
  | .jstr s => s != ""
  | .jarr items => !items.isEmpty
  | .jobj fields => !fields.isEmpty

/-- `dict.get`: the value of the last binding of the key, if any
(`json.loads` keeps the last duplicate). -/
def jGet (fields : List (String × JVal)) (key : String) : Option JVal :=
  (fields.reverse.find? fun p => p.1 = key).map Prod.snd

/-- `item.get("id") or item.get("name")` followed by the `if name:`
truthiness test: the name value contributed by one list item, if any. -/
def itemName (item : JVal) : Option JVal :=
  match item with
  | .jobj fields =>
    let idv := jGet fields "id"
    let pick :=
      match idv with
      | some v => if jTruthy v then some v else jGet fields "name"
      | none => jGet fields "name"
    match pick with
    | some v => if jTruthy v then some v else none
    | none => none
  | _ => none

/-- The first extraction pass over the parsed body: the `data` list of a
dict, or a bare list, contributes the truthy id/name of each dict item. -/
def extractModels (data : JVal) : List JVal :=
  match data with
  | .jobj fields =>
    match jGet fields "data" with
    | some (.jarr items) => items.filterMap itemName
    | _ => []
  | .jarr items => items.filterMap itemName
  | _ => []

/-- The degraded fallback: when no models were extracted and the body is
a dict, its top-level keys (as strings) are appended to the models. -/
def fallbackKeys (data : JVal) : List JVal :=
  match data with
  | .jobj fields => fields.map fun p => .jstr p.1
  | _ => []

/-- The de-duplication loop (`if m not in seen: seen.append(m)`). -/
def dedupKeep : List JVal → List JVal → List JVal
  | seen, [] => seen.reverse
  | seen, m :: ms =>
    if seen.any (jvalEq m) then dedupKeep seen ms else dedupKeep (m :: seen) ms

/-- The outcome of the `requests.get` call: an exception, or a status
code together with the body (`none` when `resp.json()` raises). -/
inductive FetchOutcome where
  | requestError
  | response (status : Nat) (body : Option JVal)

/-- `AIAssistantWindow.fetch_models_from_api`. -/
def fetch_models_from_api : FetchOutcome → List JVal
  | .requestError => []
  | .response status body =>
    if status ≠ 200 then []
    else
      match body with
      | none => []
      | some data =>
        let models := extractModels data
        let models := if models.isEmpty then models ++ fallbackKeys data else models
        dedupKeep [] models

/-- An object carrying an `id` or `name` key, the item shape the spec's
accepted response shapes are made of.  Written from the spec's words, to
state what a shape mismatch is. -/
def specIdNameObj : JVal → Bool
  | .jobj fields => (jGet fields "id").isSome || (jGet fields "name").isSome
  | _ => false

/-- Modelled from the spec: the two accepted response shapes of the
model-discovery endpoint, `{data: [{id|name}, ...]}` or a bare list of
such objects. -/
def specAcceptedShape : JVal → Bool
  | .jobj fields =>
    match jGet fields "data" with
    | some (.jarr items) => items.all specIdNameObj
    | _ => false
  | .jarr items => items.all specIdNameObj
  | _ => false

/-- Does the parsed body force an empty result: anything that is neither
a dict (whose keys would be returned as a fallback) nor a list containing
an object with a truthy `id` or `name` value. -/
def bodyYieldsNoModels : JVal → Prop
  | .jobj _ => False
  | .jarr items => ∀ item ∈ items, (itemName item).isNone = true
  | _ => True

/-! ## Orchestrator: `on_send`

The window state relevant to a submission is captured in a record:
the turn history, the displayed conversation blocks, the input box, the
streaming buffer, the worker handle and the status widgets.  `on_send`
strips the input text and returns immediately when it is empty;
otherwise it clears the input box, snapshots the history into the
outbound message list, appends the user turn, displays it, opens the
placeholder and starts a worker. -/

/-- One block of the chat display. -/
inductive DisplayItem where
  | message (role : String) (text : String)
  | aiPlaceholder
deriving DecidableEq, Repr

/-- A started `StreamWorker`: its outbound message list and model. -/
structure WorkerHandle where
  messages : List ChatMsg
  model : String
deriving DecidableEq, Repr

/-- The window state touched by `on_send`. -/
structure UIState where
  history : List ChatMsg
  display : List DisplayItem
  inputText : String
  currentAiBuffer : String
  worker : Option WorkerHandle
  sendEnabled : Bool
  stopEnabled : Bool
  statusMessage : String
  progressLabel : String
  historyLabel : String
  modelName : String
deriving DecidableEq, Repr

/-- `DEFAULT_SYSTEM_PROMPT`. -/
def default_system_prompt : String :=
  "你是一个专业的 AI 助手，除非用户要求，否则始终使用中文回答。" ++
  "回答应简洁、清晰并具可操作性：优先给出直接答案或步骤，必要时提供示例或代码片段，" ++
  "遇到不确定或需要更多信息的情况要礼貌地询问澄清问题。" ++
  "避免冗长的开场白，重点突出关键点并给出建议或后续操作。" ++
  "当用户问你是谁之类的问题时，你回答：我是由 LMStudio 驱动的本地 AI 助手。"

/-- `AIAssistantWindow.on_send`. -/
def on_send (st : UIState) : UIState :=
  let user_text := pyStrip st.inputText
  if user_text = "" then st
  else
    let messages :=
      ⟨"system", default_system_prompt⟩ :: (st.history ++ [⟨"user", user_text⟩])
    let history2 := st.history ++ [⟨"user", user_text⟩]
    { st with
      inputText := ""
      history := history2
      display := st.display ++ [.message "user" user_text, .aiPlaceholder]
      currentAiBuffer := ""
      sendEnabled := false
      stopEnabled := true
      statusMessage := "正在生成..."
      progressLabel := "响应进度: 0%"
      worker := some ⟨messages, st.modelName⟩
      historyLabel := "历史消息: " ++ toString history2.length }

/-! ## SafeMarkupRenderer: `_format_display_text`

The render pipeline is a fixed sequence of regex substitutions.  Each
substitution is embedded as a recursive scanner with the exact
left-to-right, non-overlapping semantics of `re.sub` / `str.replace` for
its concrete pattern; anchored multiline patterns scan only at position
0 and after a newline.  Splitting helpers carry the decomposition of
their input as a certificate, which feeds both the termination measures
and the injection-safety proof. -/

/-- Markup fragments emitted by the pipeline itself.  `allowedTags`
lists them; the safety theorem shows every angle bracket of the output
lies inside one of these fragments. -/
def tagHdrOpen : List Char :=
  "<div style=\"font-weight:700;margin:6px 0;\">".data

/-- Block-quote open tag of the pipeline. -/
def tagQuoteOpen : List Char :=
  "<div style=\"color:#666;margin-left:10px;border-left:3px solid #eee;padding-left:8px;\">".data

/-- Closing tag shared by headings and quotes. -/
def tagDivClose : List Char := "</div>".data

/-- Horizontal rule emitted for `@@HR@@`. -/
def tagHr : List Char := "<hr/>".data

/-- Bold open/close tags. -/
def tagBoldOpen : List Char := "<b>".data

/-- Bold close tag. -/
def tagBoldClose : List Char := "</b>".data

/-- Italic open tag. -/
def tagItalOpen : List Char := "<i>".data

/-- Italic close tag. -/
def tagItalClose : List Char := "</i>".data

/-- Inline code span open tag. -/
def tagCodeOpen : List Char :=
  "<code style=\"background:#f0f0f0;padding:2px;border-radius:3px;\">".data

/-- Code close tag (inline spans and code blocks). -/
def tagCodeClose : List Char := "</code>".data

/-- Code block `pre` open tag. -/
def tagPreOpen : List Char :=
  "<pre style=\"background:#f6f8fa;padding:8px;border-radius:6px;\">".data

/-- Plain `code` open tag of a code block. -/
def tagCodePlain : List Char := "<code>".data

/-- Code block `pre` close tag. -/
def tagPreClose : List Char := "</pre>".data

/-- Line break emitted for `\n`. -/
def tagBr : List Char := "<br/>".data

/-- All markup fragments the pipeline can emit. -/
def allowedTags : List (List Char) :=
  [tagHdrOpen, tagQuoteOpen, tagDivClose, tagHr, tagBoldOpen, tagBoldClose,
   tagItalOpen, tagItalClose, tagCodeOpen, tagCodeClose, tagPreOpen,
   tagCodePlain, tagPreClose, tagBr]

/-- Consume a literal pattern from the front, certifying the remainder. -/
def chopLead : (pat cs : List Char) → Option {rest : List Char // cs = pat ++ rest}
  | [], cs => some ⟨cs, rfl⟩
  | _ :: _, [] => none
  | p :: ps, c :: cs =>
    if h : p = c then
      match chopLead ps cs with
      | some ⟨rest, hr⟩ => some ⟨rest, by rw [hr, h]; rfl⟩
      | none => none
    else none

/-- First occurrence of a literal pattern, as the certified split
`cs = pre ++ pat ++ rest`; `none` when the pattern does not occur.
This is the scan order of `re.sub` / `str.replace` for a literal. -/
def findSplit (pat : List Char) : (cs : List Char) →
    Option ((pre : List Char) × {rest : List Char // cs = pre ++ pat ++ rest})
  | [] =>
    match chopLead pat [] with
    | some ⟨rest, hr⟩ => some ⟨[], rest, by simpa using hr⟩
    | none => none
  | c :: cs =>
    match chopLead pat (c :: cs) with
    | some ⟨rest, hr⟩ => some ⟨[], rest, by simpa using hr⟩
    | none =>
      match findSplit pat cs with
      | some ⟨pre, rest, hr⟩ => some ⟨c :: pre, rest, by simp [hr]⟩
      | none => none

/-- `str.replace(pat, repl)`, fuelled: replace every occurrence left to
right, continuing after each replaced occurrence.  Every recursion
consumes at least one input character (the callers' patterns are
non-empty), so the callers' fuel `cs.length + 1` never runs out. -/
def replaceAllF (pat repl : List Char) : Nat → List Char → List Char
  | 0, cs => cs
  | fuel + 1, cs =>
    match findSplit pat cs with
    | none => cs
    | some ⟨pre, rest, _⟩ => pre ++ repl ++ replaceAllF pat repl fuel rest

/-- `str.replace(pat, repl)` for a non-empty literal pattern. -/
def replaceAll (pat repl cs : List Char) : List Char :=
  replaceAllF pat repl (cs.length + 1) cs

/-- `re.sub(r'OPEN(.*?)CLOSE', wrap, s, flags=re.DOTALL)` for literal
markers, fuelled: find the first marker pair, wrap the capture in the
given tags, continue after the match.  When the first open marker has no
close marker after it, no later open marker has one either, so the text
is returned unchanged.  Every recursion consumes at least the two
markers, so the caller's fuel never runs out. -/
def expandMarkedF (openPat closePat tagOpen tagClose : List Char) :
    Nat → List Char → List Char
  | 0, cs => cs
  | fuel + 1, cs =>
    match findSplit openPat cs with
    | none => cs
    | some ⟨pre, mid, _⟩ =>
      match findSplit closePat mid with
      | none => cs
      | some ⟨cap, rest, _⟩ =>
        pre ++ tagOpen ++ cap ++ tagClose ++
          expandMarkedF openPat closePat tagOpen tagClose fuel rest

/-- The marker-pair substitution for `@@HDR@@`/`@@QUOTE@@` blocks. -/
def expandMarked (openPat closePat tagOpen tagClose cs : List Char) : List Char :=
  expandMarkedF openPat closePat tagOpen tagClose (cs.length + 1) cs

/-- `html.escape(s, quote=True)` on one character. -/
def escapeChar (c : Char) : List Char :=
  if c = '&' then "&amp;".data
  else if c = '<' then "&lt;".data
  else if c = '>' then "&gt;".data
  else if c = '"' then "&quot;".data
  else if c.toNat = 39 then "&#x27;".data
  else [c]

/-- `html.escape(s, quote=True)`: the successive `str.replace` calls of
the library function amount to this character-wise expansion, since no
replacement output contains a character replaced later. -/
def html_escape (cs : List Char) : List Char :=
  (cs.map escapeChar).flatten

/-- Close search for `\*\*(.+?)\*\*` after the first capture character:
the capture grows lazily until an adjacent `**` is found; a newline
aborts (the dot does not match it). -/
def findBoldCloseAux : (cs : List Char) →
    Option ((cap : List Char) × {rest : List Char // cs = cap ++ '*' :: '*' :: rest})
  | [] => none
  | [_] => none
  | a :: b :: t =>
    if ha : a = '*' then
      if hb : b = '*' then some ⟨[], t, by rw [ha, hb]; rfl⟩
      else
        match findBoldCloseAux (b :: t) with
        | some ⟨cap, rest, h⟩ => some ⟨a :: cap, rest, by rw [List.cons_append, ← h]⟩
        | none => none
    else if a = '\n' then none
    else
      match findBoldCloseAux (b :: t) with
      | some ⟨cap, rest, h⟩ => some ⟨a :: cap, rest, by rw [List.cons_append, ← h]⟩
      | none => none

/-- The whole close search for bold: at least one capture character. -/
def findBoldClose (cs : List Char) :
    Option ((cap : List Char) × {rest : List Char // cs = cap ++ '*' :: '*' :: rest ∧ cap ≠ []}) :=
  match cs with
  | [] => none
  | c :: cs =>
    if c = '\n' then none
    else
      match findBoldCloseAux cs with
      | some ⟨cap, rest, h⟩ =>
        some ⟨c :: cap, rest, ⟨by rw [List.cons_append, ← h], by simp⟩⟩
      | none => none

/-- `re.sub(r'\*\*(.+?)\*\*', r'<b>\1</b>', s)`, fuelled (one unit per
scanned character or match; every step consumes at least one input
character). -/
def boldSubF : Nat → List Char → List Char
  | 0, cs => cs
  | _ + 1, [] => []
  | fuel + 1, c :: cs =>
    if c = '*' then
      match cs with
      | c2 :: cs2 =>
        if c2 = '*' then
          match findBoldClose cs2 with
          | some ⟨cap, rest, _⟩ =>
            tagBoldOpen ++ cap ++ tagBoldClose ++ boldSubF fuel rest
          | none => c :: boldSubF fuel (c2 :: cs2)
        else c :: boldSubF fuel (c2 :: cs2)
      | [] => [c]
    else c :: boldSubF fuel cs

/-- `re.sub(r'\*\*(.+?)\*\*', r'<b>\1</b>', s)`. -/
def boldSub (cs : List Char) : List Char :=
  boldSubF (cs.length + 1) cs

/-- Close search for the italic pattern
`(?<!\*)\*(?!\*)(.+?)(?<!\*)\*(?!\*)`: a closing `*` must not be
preceded (last capture character) or followed by another `*`; failing
candidates are absorbed into the capture. -/
def findItalCloseAux : (prevC : Char) → (cs : List Char) →
    Option ((cap : List Char) × {rest : List Char // cs = cap ++ '*' :: rest ∧ rest.head? ≠ some '*'})
  | _, [] => none
  | prevC, c :: cs =>
    if h : c = '*' && prevC != '*' && cs.head? != some '*' then
      some ⟨[], cs, by
        simp only [Bool.and_eq_true, bne_iff_ne, decide_eq_true_eq] at h
        exact ⟨by rw [h.1.1]; rfl, h.2⟩⟩
    else if c = '\n' then none
    else
      match findItalCloseAux c cs with
      | some ⟨cap, rest, h⟩ =>
        some ⟨c :: cap, rest, ⟨by rw [List.cons_append, ← h.1], h.2⟩⟩
      | none => none

/-- The whole close search for italic: at least one capture character,
which the opener's lookahead has already checked is not `*`. -/
def findItalClose (cs : List Char) :
    Option ((cap : List Char) ×
      {rest : List Char // cs = cap ++ '*' :: rest ∧ cap ≠ [] ∧ rest.head? ≠ some '*'}) :=
  match cs with
  | [] => none
  | c :: cs =>
    if c = '\n' then none
    else
      match findItalCloseAux c cs with
      | some ⟨cap, rest, h⟩ =>
        some ⟨c :: cap, rest, ⟨by rw [List.cons_append, ← h.1], by simp, h.2⟩⟩
      | none => none

/-- `re.sub(r'(?<!\*)\*(?!\*)(.+?)(?<!\*)\*(?!\*)', r'<i>\1</i>', s)`,
fuelled.  The `prev` argument carries the previous character of the
subject for the opening lookbehind. -/
def italicSubF : Nat → Option Char → List Char → List Char
  | 0, _, cs => cs
  | _ + 1, _, [] => []
  | fuel + 1, prev, c :: cs =>
    if c = '*' && prev != some '*' && cs.head? != some '*' then
      match findItalClose cs with
      | some ⟨cap, rest, _⟩ =>
        tagItalOpen ++ cap ++ tagItalClose ++ italicSubF fuel (some '*') rest
      | none => c :: italicSubF fuel (some c) cs
    else c :: italicSubF fuel (some c) cs

/-- The italic substitution on a whole subject (no previous character). -/
def italicSub (cs : List Char) : List Char :=
  italicSubF (cs.length + 1) none cs

/-- Close search for the inline code span `` `(.+?)` ``: the capture
grows lazily until a backtick; newline aborts. -/
def findTickCloseAux : (cs : List Char) →
    Option ((cap : List Char) × {rest : List Char // cs = cap ++ '`' :: rest})
  | [] => none
  | c :: cs =>
    if h : c = '`' then some ⟨[], cs, by rw [h]; rfl⟩
    else if c = '\n' then none
    else
      match findTickCloseAux cs with
      | some ⟨cap, rest, hr⟩ => some ⟨c :: cap, rest, by rw [List.cons_append, ← hr]⟩
      | none => none

/-- The whole close search for a code span: at least one capture
character. -/
def findTickClose (cs : List Char) :
    Option ((cap : List Char) × {rest : List Char // cs = cap ++ '`' :: rest ∧ cap ≠ []}) :=
  match cs with
  | [] => none
  | c :: cs =>
    if c = '\n' then none
    else
      match findTickCloseAux cs with
      | some ⟨cap, rest, h⟩ =>
        some ⟨c :: cap, rest, ⟨by rw [List.cons_append, ← h], by simp⟩⟩
      | none => none

/-- ``re.sub(r'`(.+?)`', r'<code style="...">\1</code>', s)``, fuelled. -/
def codeSpanSubF : Nat → List Char → List Char
  | 0, cs => cs
  | _ + 1, [] => []
  | fuel + 1, c :: cs =>
    if c = '`' then
      match findTickClose cs with
      | some ⟨cap, rest, _⟩ =>
        tagCodeOpen ++ cap ++ tagCodeClose ++ codeSpanSubF fuel rest
      | none => c :: codeSpanSubF fuel cs
    else c :: codeSpanSubF fuel cs

/-- ``re.sub(r'`(.+?)`', r'<code style="...">\1</code>', s)``. -/
def codeSpanSub (cs : List Char) : List Char :=
  codeSpanSubF (cs.length + 1) cs

/-- The suffix of a list after its last newline (whitespace left in
place by the blank-run collapse, to be rescanned without effect). -/
def afterLastNL (cs : List Char) : List Char :=
  (cs.reverse.takeWhile (· != '\n')).reverse

/-- `re.sub(r'(\s*\n){3,}', '\n\n', s)`, fuelled: a maximal whitespace
run containing at least three newlines is matched up to its last newline
(the repetition consumes every newline greedily) and replaced by one
blank line; its trailing newline-free whitespace stays. -/
def collapseBlankRunsF : Nat → List Char → List Char
  | 0, cs => cs
  | _ + 1, [] => []
  | fuel + 1, c :: cs =>
    if isPyWS c then
      let run := c :: cs.takeWhile isPyWS
      let rest := cs.dropWhile isPyWS
      if 3 ≤ run.count '\n' then
        '\n' :: '\n' :: (afterLastNL run ++ collapseBlankRunsF fuel rest)
      else run ++ collapseBlankRunsF fuel rest
    else c :: collapseBlankRunsF fuel cs

/-- `re.sub(r'(\s*\n){3,}', '\n\n', s)`. -/
def collapseBlankRuns (cs : List Char) : List Char :=
  collapseBlankRunsF (cs.length + 1) cs

/-- The `@@CODE{idx}@@` placeholder. -/
def codeMarker (i : Nat) : List Char :=
  "@@CODE".data ++ (toString i).data ++ "@@".data

/-- ``re.sub(r'```([\s\S]*?)```', _code_repl, raw)``, fuelled: extract
each fenced block lazily (first fence, nearest closing fence), replace
it with its indexed placeholder, and collect the raw contents in order.
If the first fence has no closing fence after it, no later fence has
one either, and nothing is replaced. -/
def extractCodeF : Nat → List Char → Nat → (List Char × List (List Char))
  | 0, cs, _ => (cs, [])
  | fuel + 1, cs, idx =>
    match findSplit "```".data cs with
    | none => (cs, [])
    | some ⟨pre, mid, _⟩ =>
      match findSplit "```".data mid with
      | none => (cs, [])
      | some ⟨cap, rest, _⟩ =>
        let tb := extractCodeF fuel rest (idx + 1)
        (pre ++ codeMarker idx ++ tb.1, cap :: tb.2)

/-- The fenced code-block extraction of `_format_display_text`. -/
def extractCode (cs : List Char) : List Char × List (List Char) :=
  extractCodeF (cs.length + 1) cs 0

/-- The code-block re-expansion loop: for each retained block, in index
order, `str.replace` its placeholder by the `pre`/`code` wrapper holding
the independently escaped block content. -/
def expandCodeBlocks : (blocks : List (List Char)) → (idx : Nat) → List Char → List Char
  | [], _, cs => cs
  | cb :: more, idx, cs =>
    expandCodeBlocks more (idx + 1)
      (replaceAll (codeMarker idx)
        (tagPreOpen ++ tagCodePlain ++ html_escape cb ++ tagCodeClose ++ tagPreClose) cs)

/-- The anchored-line substitution driver shared by the five `(?m)^...`
substitutions, fuelled: at position 0 and after every newline, attempt
the pattern-specific matcher `tryM`, which returns the replacement and
the match length minus one; on a match, emit the replacement and
continue after the match (the following attempt is anchored exactly when
the match's last character was a newline); otherwise emit one
character. -/
def lineSubF (tryM : List Char → Option (List Char × Nat)) :
    Nat → (atStart : Bool) → (cs : List Char) → List Char
  | 0, _, cs => cs
  | _ + 1, _, [] => []
  | fuel + 1, atStart, c :: cs =>
    if atStart then
      match tryM (c :: cs) with
      | some (repl, k) =>
        repl ++ lineSubF tryM fuel (decide (((c :: cs).take (k + 1)).getLast? = some '\n'))
          ((c :: cs).drop (k + 1))
      | none => c :: lineSubF tryM fuel (decide (c = '\n')) cs
    else c :: lineSubF tryM fuel (decide (c = '\n')) cs

/-- One anchored multiline substitution over a whole subject. -/
def lineSub (tryM : List Char → Option (List Char × Nat)) (cs : List Char) : List Char :=
  lineSubF tryM (cs.length + 1) true cs

/-- The `\s*(.+)$` tail of the heading and quote patterns, applied after
the marker run, on the remainder `r`: the greedy `\s*` backtracks to the
largest offset at which a non-newline character starts, and `(.+)`
captures greedily to the end of that line.  Returns the capture and the
number of characters of `r` inside the match; `none` when `r` consists
of newlines only. -/
def tailCapture (r : List Char) : Option (List Char × Nat) :=
  let wr := (r.takeWhile isPyWS).length
  if wr < r.length then
    let cap := (r.drop wr).takeWhile (· != '\n')
    some (cap, wr + cap.length)
  else
    let t := (r.reverse.takeWhile (· = '\n')).length
    if t = r.length then none
    else
      let j := r.length - t - 1
      let cap := (r.drop j).takeWhile (· != '\n')
      some (cap, j + cap.length)

/-- Matcher for `(?m)^\s{0,3}#{1,6}\s*(.+)$` → `@@HDR@@\1@@ENDHDR@@`.
`\s{0,3}` must cover the whole whitespace run (shorter attempts leave a
non-`#` whitespace character), `#{1,6}` is greedy; when the tail fails
on a hash run of 2-6 ending the text in newlines, the repetition
backtracks one hash, which `(.+)` then captures. -/
def headerTry (cs : List Char) : Option (List Char × Nat) :=
  let w := (cs.takeWhile isPyWS).length
  if 3 < w then none
  else
    let afterWs := cs.drop w
    let hn := (afterWs.takeWhile (· = '#')).length
    if hn = 0 then none
    else if 6 < hn then
      let cap := (afterWs.drop 6).takeWhile (· != '\n')
      some ("@@HDR@@".data ++ cap ++ "@@ENDHDR@@".data, w + 6 + cap.length - 1)
    else
      match tailCapture (afterWs.drop hn) with
      | some (cap, consumedR) =>
        some ("@@HDR@@".data ++ cap ++ "@@ENDHDR@@".data, w + hn + consumedR - 1)
      | none =>
        if 2 ≤ hn then some ("@@HDR@@".data ++ ['#'] ++ "@@ENDHDR@@".data, w + hn - 1)
        else none

/-- Matcher for `(?m)^\s*>+\s*(.+)$` → `@@QUOTE@@\1@@ENDQ@@`; same tail
behaviour as the heading pattern, with an unbounded leading `\s*`. -/
def quoteTry (cs : List Char) : Option (List Char × Nat) :=
  let w := (cs.takeWhile isPyWS).length
  let afterWs := cs.drop w
  let g := (afterWs.takeWhile (· = '>')).length
  if g = 0 then none
  else
    match tailCapture (afterWs.drop g) with
    | some (cap, consumedR) =>
      some ("@@QUOTE@@".data ++ cap ++ "@@ENDQ@@".data, w + g + consumedR - 1)
    | none =>
      if 2 ≤ g then some ("@@QUOTE@@".data ++ ['>'] ++ "@@ENDQ@@".data, w + g - 1)
      else none

/-- The trailing `\s*$` of the horizontal-rule and table-separator
patterns, on the remainder `r`: greedily consume the whitespace run to
the end of the string, else backtrack to the position of the last
newline inside the run; `none` when neither exists. -/
def trailingEnd (r : List Char) : Option Nat :=
  let wr := (r.takeWhile isPyWS).length
  if wr = r.length then some wr
  else
    let run := r.take wr
    let t := (run.reverse.takeWhile (· != '\n')).length
    if t = run.length then none
    else some (run.length - t - 1)

/-- Matcher for `(?m)^\s*(-{3,}|\*{3,})\s*$` → `@@HR@@`: a full run of
at least three dashes or asterisks after the whitespace run, then the
trailing-whitespace tail. -/
def hrTry (cs : List Char) : Option (List Char × Nat) :=
  let w := (cs.takeWhile isPyWS).length
  match cs.drop w with
  | [] => none
  | c :: _ =>
    if c = '-' || c = '*' then
      let d := ((cs.drop w).takeWhile (· = c)).length
      if d < 3 then none
      else
        match trailingEnd (cs.drop (w + d)) with
        | some j => some ("@@HR@@".data, w + d + j - 1)
        | none => none
    else none

/-- Matcher for `(?m)^\s*-\s+(.*)$` → `• \1`: a single dash after the
whitespace run, at least one whitespace character, then a possibly
empty greedy capture to the end of the line. -/
def bulletTry (cs : List Char) : Option (List Char × Nat) :=
  let w := (cs.takeWhile isPyWS).length
  match cs.drop w with
  | [] => none
  | c :: rest =>
    if c = '-' then
      let v := (rest.takeWhile isPyWS).length
      if v = 0 then none
      else
        let cap := (rest.drop v).takeWhile (· != '\n')
        some ('•' :: ' ' :: cap, w + 1 + v + cap.length - 1)
    else none

/-- One repetition `\s*:?-+:?\s*\|` of the table-separator pattern: the
number of characters it consumes, or `none` when it cannot match here.
All of its parts are forced, so the repetition is deterministic. -/
def chunkConsume (cs : List Char) : Option Nat :=
  let w1 := (cs.takeWhile isPyWS).length
  let c1 := cs.drop w1
  let k1 := match c1 with
    | ':' :: _ => 1
    | _ => 0
  let c2 := c1.drop k1
  let d := (c2.takeWhile (· = '-')).length
  if d = 0 then none
  else
    let c3 := c2.drop d
    let k2 := match c3 with
      | ':' :: _ => 1
      | _ => 0
    let c4 := c3.drop k2
    let w2 := (c4.takeWhile isPyWS).length
    match c4.drop w2 with
    | '|' :: _ => some (w1 + k1 + d + k2 + w2 + 1)
    | _ => none

/-- The greedy repetition of table-separator chunks: the cumulative
consumed lengths after 1, 2, ... chunks.  Each chunk consumes at least
one character, so the fuel `cs.length + 1` supplied by the caller never
runs out; the `k = 0` guard is unreachable. -/
def chunkChain : Nat → List Char → List Nat
  | 0, _ => []
  | fuel + 1, cs =>
    match chunkConsume cs with
    | none => []
    | some k =>
      if k = 0 then [] else k :: (chunkChain fuel (cs.drop k)).map (k + ·)

/-- The backtracking over the repetition count: try the cumulative chunk
positions from the largest down, and accept the first whose remainder
passes the trailing `\s*$`. -/
def tableTail (body : List Char) : List Nat → Option Nat
  | [] => none
  | k :: ks =>
    match trailingEnd (body.drop k) with
    | some j => some (k + j)
    | none => tableTail body ks

/-- Matcher for `(?m)^\s*\|?(?:\s*:?-+:?\s*\|)+\s*$` → `''` (the
table-separator line, dropped entirely). -/
def tableTry (cs : List Char) : Option (List Char × Nat) :=
  let w := (cs.takeWhile isPyWS).length
  let afterWs := cs.drop w
  let pipeN := match afterWs with
    | '|' :: _ => 1
    | _ => 0
  let body := afterWs.drop pipeN
  match tableTail body (chunkChain (body.length + 1) body).reverse with
  | some consumedBody => some ([], w + pipeN + consumedBody - 1)
  | none => none

/-- `re.sub(r'\s*\|\s*', ' • ', raw)`, fuelled: each pipe together with
the whitespace runs around it becomes a bullet separator. -/
def pipeSubF : Nat → List Char → List Char
  | 0, cs => cs
  | _ + 1, [] => []
  | fuel + 1, c :: cs =>
    if c = '|' then ' ' :: '•' :: ' ' :: pipeSubF fuel (cs.dropWhile isPyWS)
    else if isPyWS c then
      match cs.dropWhile isPyWS with
      | p :: after =>
        if p = '|' then ' ' :: '•' :: ' ' :: pipeSubF fuel (after.dropWhile isPyWS)
        else (c :: cs.takeWhile isPyWS) ++ pipeSubF fuel (p :: after)
      | [] => c :: cs.takeWhile isPyWS
    else c :: pipeSubF fuel cs

/-- `re.sub(r'\s*\|\s*', ' • ', raw)`. -/
def pipeSub (cs : List Char) : List Char :=
  pipeSubF (cs.length + 1) cs

/-- `"\r\n"` → `"\n"` (`str.replace`). -/
def replaceCRLF : List Char → List Char
  | [] => []
  | '\r' :: '\n' :: rest => '\n' :: replaceCRLF rest
  | c :: rest => c :: replaceCRLF rest

/-- `AIAssistantWindow._format_display_text`: the full render pipeline,
in the source's stage order. -/
def format_display_text (text : String) : String :=
  if text = "" then ""
  else
    let raw0 := replaceCRLF text.data
    let ec := extractCode raw0
    let raw2 := lineSub headerTry ec.1
    let raw3 := lineSub quoteTry raw2
    let raw4 := lineSub tableTry raw3
    let raw5 := pipeSub raw4
    let raw6 := lineSub hrTry raw5
    let raw7 := lineSub bulletTry raw6
    let esc0 := html_escape raw7
    let esc1 := expandMarked "@@HDR@@".data "@@ENDHDR@@".data tagHdrOpen tagDivClose esc0
    let esc2 := expandMarked "@@QUOTE@@".data "@@ENDQ@@".data tagQuoteOpen tagDivClose esc1
    let esc3 := replaceAll "@@HR@@".data tagHr esc2
    let esc4 := boldSub esc3
    let esc5 := italicSub esc4
    let esc6 := codeSpanSub esc5
    let esc7 := expandCodeBlocks ec.2 0 esc6
    let esc8 := collapseBlankRuns esc7
    let esc9 := replaceAll ['\n'] tagBr esc8
    String.mk esc9

/-! ## Injection safety of the render pipeline

`Safe cs` holds when `cs` is a concatenation of pipeline-emitted markup
fragments and ordinary characters other than `<` and `>`: every angle
bracket of such a string lies inside a whitelisted fragment.  The
pipeline's escape stage produces an angle-free string, and every later
stage preserves `Safe`. -/

/-- The safety language: tags from `allowedTags` and non-angle
characters, concatenated. -/
inductive Safe : List Char → Prop where
  | nil : Safe []
  | chr : ∀ (c : Char) (cs : List Char), c ≠ '<' → c ≠ '>' → Safe cs → Safe (c :: cs)
  | tag : ∀ (t cs : List Char), t ∈ allowedTags → Safe cs → Safe (t ++ cs)

/-! ## Theorems -/

/-! ## Theorems about the stream loop -/

theorem streamLoop_count_finished (parse : String → Option ChunkFields)
    (stop : Nat → Bool) :
    ∀ frames idx tc, (streamLoop parse stop frames idx tc).count StreamEvent.finished = 0 := by
  intro frames
  induction frames with
  | nil => intro idx tc; simp [streamLoop]
  | cons f rest ih =>
    intro idx tc
    cases f with
    | exn m => simp [streamLoop, List.count_cons]
    | line raw =>
      simp only [streamLoop]
      by_cases hstop : stop idx
      · simp [hstop]
      · simp only [hstop, if_false, Bool.false_eq_true]
        by_cases hraw : raw = ""
        · simp [hraw, ih]
        · simp only [hraw, if_false]
          by_cases hdone : lineContent (pyStrip raw) = "[DONE]"
          · simp [hdone]
          · simp only [hdone, if_false]
            cases parse (lineContent (pyStrip raw)) with
            | none => simp [List.count_cons, ih]
            | some ch =>
              by_cases hp : extractPiece ch = ""
              · simp [hp, ih]
              · simp [hp, List.count_cons, ih]

/-- C1: every run of a `StreamWorker` session emits the `Finished`
terminal event exactly once, on every terminal path: request failure,
non-200 HTTP status, normal `[DONE]` end of stream, end of the line
iterator, cooperative cancellation through the stop flag, and an
unexpected exception while iterating or parsing frames. -/
theorem C1_finished_exactly_once (parse : String → Option ChunkFields)
    (stop : Nat → Bool) (conn : ConnResult) :
    (streamRun parse stop conn).count StreamEvent.finished = 1 := by
  cases conn with
  | requestError e => simp [streamRun, List.count_cons]
  | response status body frames =>
    by_cases h : status = 200
    · simp [streamRun, h, List.count_append, streamLoop_count_finished]
    · simp [streamRun, h, List.count_cons]

/-- C3: a non-empty, non-sentinel payload whose JSON parse fails is
emitted verbatim as a `Delta` (`update_signal`) and the loop keeps
processing the remaining frames in the same state. -/
theorem C3_malformed_frame_literal_delta (parse : String → Option ChunkFields)
    (stop : Nat → Bool) (raw : String) (rest : List Frame) (idx tc : Nat)
    (hstop : stop idx = false) (hraw : raw ≠ "")
    (hdone : lineContent (pyStrip raw) ≠ "[DONE]")
    (hne : lineContent (pyStrip raw) ≠ "")
    (hparse : parse (lineContent (pyStrip raw)) = none) :
    streamLoop parse stop (Frame.line raw :: rest) idx tc =
      StreamEvent.update (lineContent (pyStrip raw)) ::
        streamLoop parse stop rest (idx + 1) tc := by
  simp [streamLoop, hstop, hraw, hdone, hparse]

/-- Witness for C3 at a concrete malformed frame: the payload `oops` is
not JSON (the parse returns `none`), and the loop emits it verbatim and
continues with the next frame. -/
theorem C3_witness :
    ((fun _ => false : Nat → Bool) 0 = false) ∧ ("oops" ≠ "") ∧
    lineContent (pyStrip "oops") ≠ "[DONE]" ∧ lineContent (pyStrip "oops") ≠ "" ∧
    ((fun _ => none : String → Option ChunkFields) (lineContent (pyStrip "oops")) = none) ∧
    streamLoop (fun _ => none) (fun _ => false)
        (Frame.line "oops" :: [Frame.line "[DONE]"]) 0 0 =
      StreamEvent.update "oops" ::
        streamLoop (fun _ => none) (fun _ => false) [Frame.line "[DONE]"] 1 0 := by
  refine ⟨rfl, by decide, by decide, by decide, rfl, ?_⟩
  exact C3_malformed_frame_literal_delta (fun _ => none) (fun _ => false) "oops"
    [Frame.line "[DONE]"] 0 0 rfl (by decide) (by decide) (by decide) rfl

theorem progressOf_mono {a b : Nat} (h : a ≤ b) : progressOf a ≤ progressOf b := by
  unfold progressOf
  exact min_le_min le_rfl (Nat.div_le_div_right (Nat.mul_le_mul_right 100 h))

theorem progressOf_le_100 (tc : Nat) : progressOf tc ≤ 100 :=
  min_le_left _ _

theorem streamLoop_progress_chain (parse : String → Option ChunkFields)
    (stop : Nat → Bool) :
    ∀ frames idx tc,
      List.Chain' (· ≤ ·)
        (progressOf tc :: progressValues (streamLoop parse stop frames idx tc)) := by
  intro frames
  induction frames with
  | nil => intro idx tc; simp [streamLoop, progressValues]
  | cons f rest ih =>
    intro idx tc
    cases f with
    | exn m => simp [streamLoop, progressValues]
    | line raw =>
      simp only [streamLoop]
      by_cases hstop : stop idx
      · simp [hstop, progressValues]
      · simp only [hstop, if_false, Bool.false_eq_true]
        by_cases hraw : raw = ""
        · simpa [hraw] using ih (idx + 1) tc
        · simp only [hraw, if_false]
          by_cases hdone : lineContent (pyStrip raw) = "[DONE]"
          · simp [hdone, progressValues]
          · simp only [hdone, if_false]
            cases parse (lineContent (pyStrip raw)) with
            | none => simpa [progressValues] using ih (idx + 1) tc
            | some ch =>
              by_cases hp : extractPiece ch = ""
              · simpa [hp] using ih (idx + 1) tc
              · simp only [hp, if_false]
                have hmono : progressOf tc ≤ progressOf (tc + (extractPiece ch).length) :=
                  progressOf_mono (Nat.le_add_right _ _)
                have htail := ih (idx + 1) (tc + (extractPiece ch).length)
                simp only [progressValues, List.filterMap_cons] at htail ⊢
                exact List.Chain'.cons hmono htail

theorem streamLoop_progress_le (parse : String → Option ChunkFields)
    (stop : Nat → Bool) :
    ∀ frames idx tc v, v ∈ progressValues (streamLoop parse stop frames idx tc) → v ≤ 100 := by
  intro frames
  induction frames with
  | nil => intro idx tc v hv; simp [streamLoop, progressValues] at hv
  | cons f rest ih =>
    intro idx tc v hv
    cases f with
    | exn m => simp [streamLoop, progressValues] at hv
    | line raw =>
      simp only [streamLoop] at hv
      by_cases hstop : stop idx
      · simp [hstop, progressValues] at hv
      · simp only [hstop, if_false, Bool.false_eq_true] at hv
        by_cases hraw : raw = ""
        · simp only [hraw, if_true] at hv
          exact ih _ _ _ hv
        · simp only [hraw, if_false] at hv
          by_cases hdone : lineContent (pyStrip raw) = "[DONE]"
          · simp [hdone, progressValues] at hv
          · simp only [hdone, if_false] at hv
            cases hparse : parse (lineContent (pyStrip raw)) with
            | none =>
              rw [hparse] at hv
              simp only [progressValues, List.filterMap_cons] at hv
              exact ih _ _ _ hv
            | some ch =>
              rw [hparse] at hv
              by_cases hp : extractPiece ch = ""
              · simp only [hp, if_true] at hv
                exact ih _ _ _ hv
              · simp only [hp, if_false] at hv
                simp only [progressValues, List.filterMap_cons] at hv
                rcases List.mem_cons.mp hv with h | hv'
                · subst h; exact progressOf_le_100 _
                · exact ih _ _ _ hv'

/-- C4: within one session, the emitted progress values — each computed
as `min(100, floor(token_count / 1024 * 100))` over the accumulated
character count — form a monotone non-decreasing sequence, and every
emitted value lies in `[0, 100]` (the values are natural numbers, so the
lower bound is implicit). -/
theorem C4_progress_monotone_bounded (parse : String → Option ChunkFields)
    (stop : Nat → Bool) (conn : ConnResult) :
    List.Chain' (· ≤ ·) (progressValues (streamRun parse stop conn)) ∧
      ∀ v ∈ progressValues (streamRun parse stop conn), v ≤ 100 := by
  cases conn with
  | requestError e => simp [streamRun, progressValues]
  | response status body frames =>
    by_cases h : status = 200
    · have hchain := streamLoop_progress_chain parse stop frames 0 0
      constructor
      · have : progressValues (streamRun parse stop (ConnResult.response status body frames)) =
            progressValues (streamLoop parse stop frames 0 0) := by
          simp [streamRun, h, progressValues]
        rw [this]
        exact hchain.tail
      · intro v hv
        have : progressValues (streamRun parse stop (ConnResult.response status body frames)) =
            progressValues (streamLoop parse stop frames 0 0) := by
          simp [streamRun, h, progressValues]
        rw [this] at hv
        exact streamLoop_progress_le parse stop frames 0 0 v hv
    · simp [streamRun, h, progressValues]

/-! ## Theorems about the post-processor -/

/-- C6 counterexample: `_strip_role_prefixes` is not idempotent.  The
regex removes one leading role label per application, so on
`"AI:AI:x"` the first application yields `"AI:x"` and a second
application yields `"x"`. -/
theorem C6_counterexample_not_idempotent :
    strip_role_prefixes (strip_role_prefixes "AI:AI:x") ≠
      strip_role_prefixes "AI:AI:x" := by
  decide

theorem strip_role_prefixes_no_label (t : String) (h : startsWithRoleLabel t = false) :
    strip_role_prefixes t = t := by
  have h' : ∀ l ∈ roleLabels, ¬ (matchLabelCI l.data (t.data.dropWhile isPyWS) = true) := by
    simpa [startsWithRoleLabel, List.any_eq_true] using h
  unfold strip_role_prefixes
  by_cases ht : t = ""
  · simp [ht]
  · have hfind : roleLabels.find? (fun l => matchLabelCI l.data (t.data.dropWhile isPyWS)) = none :=
      List.find?_eq_none.mpr h'
    simp [ht, hfind]

/-- C6 amended: `_strip_role_prefixes` removes exactly one leading role
label per application, so it is idempotent exactly on the inputs whose
once-stripped result does not itself begin (after optional whitespace)
with another role label; for such inputs, applying it twice equals
applying it once. -/
theorem C6_amended_idempotent_when_label_free (s : String)
    (h : startsWithRoleLabel (strip_role_prefixes s) = false) :
    strip_role_prefixes (strip_role_prefixes s) = strip_role_prefixes s :=
  strip_role_prefixes_no_label _ h

/-- Witness for the amended C6 at `"AI: hello"`: one application strips
the label, leaving `"hello"`, which starts with no role label, and a
second application changes nothing. -/
theorem C6_amended_witness :
    startsWithRoleLabel (strip_role_prefixes "AI: hello") = false ∧
      strip_role_prefixes (strip_role_prefixes "AI: hello") =
        strip_role_prefixes "AI: hello" :=
  ⟨by decide, C6_amended_idempotent_when_label_free "AI: hello" (by decide)⟩

/-- C7: `_collapse_consecutive_sentences` drops a sentence unit equal to
the immediately preceding kept unit and preserves non-adjacent
duplicates: `"A。A。B。"` collapses to `"A。B。"` while `"A。B。A。"`
is returned unchanged. -/
theorem C7_collapse_examples :
    collapse_consecutive_sentences "A。A。B。" = "A。B。" ∧
      collapse_consecutive_sentences "A。B。A。" = "A。B。A。" := by
  constructor <;> decide

/-! ## Theorems about `on_stream_finish` -/

theorem head?_dropWhile_not (p : Char → Bool) :
    ∀ (l : List Char) (c : Char), (l.dropWhile p).head? = some c → p c = false := by
  intro l
  induction l with
  | nil => intro c h; simp [List.dropWhile] at h
  | cons a t ih =>
    intro c h
    by_cases hp : p a
    · rw [List.dropWhile_cons_of_pos hp] at h
      exact ih c h
    · rw [List.dropWhile_cons_of_neg hp] at h
      simp only [List.head?_cons, Option.some_inj] at h
      subst h
      exact Bool.eq_false_iff.mpr hp

theorem getLast?_dropWhile (p : Char → Bool) (l : List Char)
    (h : l.dropWhile p ≠ []) : (l.dropWhile p).getLast? = l.getLast? := by
  conv_rhs => rw [← List.takeWhile_append_dropWhile (p := p) (l := l)]
  rw [List.getLast?_append_of_ne_nil _ h]

theorem pyStripList_noWSEnds (x : List Char) : NoWSEnds (pyStripList x) := by
  unfold pyStripList
  constructor
  · intro c hc
    rw [List.head?_reverse] at hc
    by_cases hz : (x.dropWhile isPyWS).reverse.dropWhile isPyWS = []
    · simp [hz] at hc
    · rw [getLast?_dropWhile isPyWS _ hz, List.getLast?_reverse] at hc
      exact head?_dropWhile_not isPyWS x c hc
  · intro c hc
    rw [List.getLast?_reverse] at hc
    exact head?_dropWhile_not isPyWS _ c hc

theorem dropWhile_eq_self_of_head (p : Char → Bool) (l : List Char)
    (h : ∀ c, l.head? = some c → p c = false) : l.dropWhile p = l := by
  cases l with
  | nil => rfl
  | cons a t =>
    have := h a rfl
    rw [List.dropWhile_cons_of_neg (by simp [this])]

theorem pyStripList_eq_self (l : List Char) (h : NoWSEnds l) : pyStripList l = l := by
  unfold pyStripList
  rw [dropWhile_eq_self_of_head isPyWS l h.1]
  rw [dropWhile_eq_self_of_head isPyWS l.reverse
    (by intro c hc; rw [List.head?_reverse] at hc; exact h.2 c hc)]
  exact List.reverse_reverse l

theorem collapseGo_mem :
    ∀ (ps : List (List Char × List Char)) (lastKept : Option (List Char)) (k : List Char),
      k ∈ collapseGo ps lastKept → k ≠ [] ∧ ∃ w, k = pyStripList w := by
  intro ps
  induction ps with
  | nil => intro lastKept k hk; simp [collapseGo] at hk
  | cons p t ih =>
    intro lastKept k hk
    obtain ⟨seg, delim⟩ := p
    simp only [collapseGo] at hk
    by_cases h1 : pyStripList (pyStripList seg ++ delim) = []
    · rw [if_pos h1] at hk
      exact ih _ k hk
    · rw [if_neg h1] at hk
      by_cases h2 : lastKept = some (pyStripList (pyStripList seg ++ delim))
      · rw [if_pos h2] at hk
        exact ih _ k hk
      · rw [if_neg h2] at hk
        rcases List.mem_cons.mp hk with h | h
        · exact ⟨h ▸ h1, h ▸ ⟨pyStripList seg ++ delim, rfl⟩⟩
        · exact ih _ k h

theorem flatten_noWSEnds :
    ∀ ks : List (List Char), (∀ k ∈ ks, k ≠ [] ∧ NoWSEnds k) → NoWSEnds ks.flatten := by
  intro ks
  induction ks with
  | nil => intro _; exact ⟨by simp, by simp⟩
  | cons k t ih =>
    intro h
    have hk := h k (List.mem_cons_self k t)
    have ht := ih fun x hx => h x (List.mem_cons_of_mem k hx)
    rw [List.flatten_cons]
    constructor
    · intro c hc
      rw [List.head?_append_of_ne_nil _ hk.1] at hc
      exact hk.2.1 c hc
    · intro c hc
      by_cases hflat : t.flatten = []
      · rw [hflat, List.append_nil] at hc
        exact hk.2.2 c hc
      · rw [List.getLast?_append_of_ne_nil _ hflat] at hc
        exact ht.2 c hc

theorem collapse_strip_self (t : String) :
    pyStrip (collapse_consecutive_sentences t) = collapse_consecutive_sentences t := by
  unfold collapse_consecutive_sentences
  by_cases ht : t = ""
  · simp [ht]; rfl
  · rw [if_neg ht]
    have h : NoWSEnds (collapseGo (sentencePairsGo [] [] t.data) none).flatten := by
      apply flatten_noWSEnds
      intro k hk
      obtain ⟨hne, w, hw⟩ := collapseGo_mem _ _ k hk
      exact ⟨hne, hw ▸ pyStripList_noWSEnds w⟩
    show String.mk (pyStripList _) = _
    rw [pyStripList_eq_self _ h]

theorem finalText_strip_self (buffer : String) :
    pyStrip (finalText buffer) = finalText buffer :=
  collapse_strip_self _

/-- C5: per completed session, `on_stream_finish` appends at most one
assistant turn to the history; a turn is appended only when the
post-processed final text is non-empty and differs from the content of
the most recent assistant turn; and a session whose buffer is still empty
(e.g. cancelled before any delta arrived) appends nothing. -/
theorem C5_assistant_append_guard (history : List ChatMsg) (buffer : String) :
    (on_stream_finish_history history buffer = history ∨
      on_stream_finish_history history buffer =
        history ++ [⟨"assistant", finalText buffer⟩]) ∧
    (on_stream_finish_history history buffer ≠ history →
      finalText buffer ≠ "" ∧
        ∀ m, lastAssistantMsg history = some m → m.content ≠ finalText buffer) ∧
    (buffer = "" → on_stream_finish_history history buffer = history) := by
  refine ⟨?_, ?_, ?_⟩
  · unfold on_stream_finish_history
    by_cases h1 : finalText buffer ≠ ""
    · by_cases h2 : (lastAssistantMsg history).map (fun m => pyStrip m.content) =
          some (finalText buffer)
      · left; simp [h1, h2]
      · right; simp [h1, h2]
    · left; simp [h1]
  · intro hne
    unfold on_stream_finish_history at hne
    by_cases h1 : finalText buffer ≠ ""
    · refine ⟨h1, ?_⟩
      intro m hm hcontent
      by_cases h2 : (lastAssistantMsg history).map (fun m => pyStrip m.content) =
          some (finalText buffer)
      · simp [h1, h2] at hne
      · apply h2
        rw [hm]
        show some (pyStrip m.content) = some (finalText buffer)
        rw [hcontent, finalText_strip_self]
    · simp [h1] at hne
  · intro hb
    have h0 : finalText buffer = "" := by
      rw [hb]
      decide
    unfold on_stream_finish_history
    simp [h0]

/-- Witness for C5 at a concrete input: with an empty buffer (a session
cancelled before any delta) the history is unchanged. -/
theorem C5_witness :
    on_stream_finish_history [⟨"user", "hi"⟩] "" = [⟨"user", "hi"⟩] :=
  (C5_assistant_append_guard [⟨"user", "hi"⟩] "").2.2 rfl

/-! ## Theorems about model discovery -/

/-- C9 counterexample: a dict body with no `data` key is not an accepted
shape, yet `fetch_models_from_api` returns its top-level keys (the
degraded fallback of the source), not an empty list. -/
theorem C9_counterexample_dict_keys_fallback :
    specAcceptedShape (JVal.jobj [("foo", JVal.jnum 1)]) = false ∧
      fetch_models_from_api
          (FetchOutcome.response 200 (some (JVal.jobj [("foo", JVal.jnum 1)]))) =
        [JVal.jstr "foo"] ∧
      fetch_models_from_api
          (FetchOutcome.response 200 (some (JVal.jobj [("foo", JVal.jnum 1)]))) ≠ [] := by
  refine ⟨rfl, rfl, ?_⟩
  intro h
  rw [show fetch_models_from_api
      (FetchOutcome.response 200 (some (JVal.jobj [("foo", JVal.jnum 1)]))) =
      [JVal.jstr "foo"] from rfl] at h
  exact List.cons_ne_nil _ _ h

/-- C9 amended: `fetch_models_from_api` yields an empty list on any
request failure, non-200 status, or unparseable body, and for any parsed
body that is neither a dict nor a list containing an object with a
truthy `id`/`name`; a dict body failing the accepted shape instead
yields its top-level keys as a degraded fallback list (see the
counterexample). -/
theorem C9_amended_empty_on_failure (outcome : FetchOutcome)
    (h : match outcome with
      | .requestError => True
      | .response status body =>
        status ≠ 200 ∨ body = none ∨ ∃ data, body = some data ∧ bodyYieldsNoModels data) :
    fetch_models_from_api outcome = [] := by
  match outcome with
  | .requestError => rfl
  | .response status body =>
    rcases h with hs | hb | ⟨data, hd, hnm⟩
    · simp [fetch_models_from_api, hs]
    · subst hb
      by_cases hs : status = 200 <;> simp [fetch_models_from_api, hs]
    · subst hd
      by_cases hs : status = 200
      · subst hs
        match data, hnm with
        | .jnull, _ => rfl
        | .jbool b, _ => rfl
        | .jnum n, _ => rfl
        | .jstr s, _ => rfl
        | .jarr items, hnm =>
          have hex : extractModels (JVal.jarr items) = [] := by
            simp only [extractModels]
            rw [List.filterMap_eq_nil_iff]
            intro item hitem
            exact Option.isNone_iff_eq_none.mp (hnm item hitem)
          simp [fetch_models_from_api, hex, fallbackKeys, dedupKeep]
      · simp [fetch_models_from_api, hs]

/-- Witness for the amended C9 at a concrete input: a bare list of
strings (not objects) is a shape mismatch with no dict fallback, and the
fetch yields the empty list. -/
theorem C9_amended_witness :
    fetch_models_from_api (FetchOutcome.response 200 (some (JVal.jarr [JVal.jstr "x"]))) = [] :=
  C9_amended_empty_on_failure _ (Or.inr (Or.inr ⟨_, rfl, by
    intro item hitem
    rcases List.mem_singleton.mp hitem with rfl
    rfl⟩))

/-! ## Theorems about `on_send` -/

/-- C10: submitting empty or whitespace-only input is a complete no-op:
`on_send` returns the state unchanged — no history append, no display
change, no placeholder, no worker start. -/
theorem C10_empty_submit_noop (st : UIState) (h : pyStrip st.inputText = "") :
    on_send st = st := by
  simp [on_send, h]

/-- Witness for C10 at a concrete state whose input box holds only
whitespace. -/
theorem C10_witness :
    on_send
        { history := [⟨"user", "hi"⟩], display := [.message "user" "hi"],
          inputText := "  \t ", currentAiBuffer := "", worker := none,
          sendEnabled := true, stopEnabled := false, statusMessage := "就绪",
          progressLabel := "响应进度: 0%", historyLabel := "历史消息: 1",
          modelName := "m" } =
      { history := [⟨"user", "hi"⟩], display := [.message "user" "hi"],
        inputText := "  \t ", currentAiBuffer := "", worker := none,
        sendEnabled := true, stopEnabled := false, statusMessage := "就绪",
        progressLabel := "响应进度: 0%", historyLabel := "历史消息: 1",
        modelName := "m" } :=
  C10_empty_submit_noop _ (by decide)

theorem allowedTags_ne_nil : ∀ t ∈ allowedTags, t ≠ [] := by decide

theorem allowedTags_head : ∀ t ∈ allowedTags, t.head? = some '<' := by decide

theorem allowedTags_no_at : ∀ t ∈ allowedTags, '@' ∉ t := by decide

theorem allowedTags_no_star : ∀ t ∈ allowedTags, '*' ∉ t := by decide

theorem allowedTags_no_tick : ∀ t ∈ allowedTags, '`' ∉ t := by decide

theorem allowedTags_no_nl : ∀ t ∈ allowedTags, '\n' ∉ t := by decide

theorem allowedTags_last : ∀ t ∈ allowedTags, t.getLast? = some '>' := by decide

theorem safe_append {a b : List Char} (ha : Safe a) (hb : Safe b) : Safe (a ++ b) := by
  induction ha with
  | nil => simpa using hb
  | chr c cs h1 h2 _ ih => exact Safe.chr c (cs ++ b) h1 h2 ih
  | tag t cs ht _ ih =>
    rw [List.append_assoc]
    exact Safe.tag t (cs ++ b) ht ih

theorem safe_of_no_angle {cs : List Char} (h : ∀ c ∈ cs, c ≠ '<' ∧ c ≠ '>') : Safe cs := by
  induction cs with
  | nil => exact Safe.nil
  | cons c cs ih =>
    have hc := h c (List.mem_cons_self c cs)
    exact Safe.chr c cs hc.1 hc.2 (ih fun x hx => h x (List.mem_cons_of_mem c hx))

/-- Peeling: a safe string starting with a character that starts no tag
(every tag starts with `<`) continues safely. -/
theorem safe_cons_elim {c : Char} {cs : List Char} (h : Safe (c :: cs)) (hc : c ≠ '<') :
    Safe cs := by
  generalize hs : c :: cs = s at h
  cases h with
  | nil => exact absurd hs (List.cons_ne_nil c cs)
  | chr c' cs' h1 h2 htail =>
    obtain ⟨rfl, rfl⟩ := List.cons_eq_cons.mp hs
    exact htail
  | tag t u ht hu =>
    exfalso
    cases t with
    | nil => exact allowedTags_ne_nil [] ht rfl
    | cons d t' =>
      have hh := allowedTags_head _ ht
      simp only [List.head?_cons, Option.some_inj] at hh
      rw [List.cons_append] at hs
      have hd := (List.cons_eq_cons.mp hs).1
      exact hc (by rw [hd, hh])

/-- A safe string never starts with `>`. -/
theorem safe_head_ne_gt {c : Char} {cs : List Char} (h : Safe (c :: cs)) : c ≠ '>' := by
  generalize hs : c :: cs = s at h
  cases h with
  | nil => exact absurd hs (List.cons_ne_nil c cs)
  | chr c' cs' h1 h2 htail =>
    obtain ⟨rfl, rfl⟩ := List.cons_eq_cons.mp hs
    exact h2
  | tag t u ht hu =>
    cases t with
    | nil => exact absurd rfl (allowedTags_ne_nil [] ht)
    | cons d t' =>
      have hh := allowedTags_head _ ht
      simp only [List.head?_cons, Option.some_inj] at hh
      rw [List.cons_append] at hs
      have hd := (List.cons_eq_cons.mp hs).1
      rw [hd, hh]
      decide

/-- Peeling a whole angle-free prefix. -/
theorem safe_peel {xs rest : List Char} (hx : '<' ∉ xs) (h : Safe (xs ++ rest)) :
    Safe rest := by
  induction xs with
  | nil => simpa using h
  | cons x xs ih =>
    have hx1 : x ≠ '<' := fun hc => hx (hc ▸ List.mem_cons_self x xs)
    have := safe_cons_elim (by simpa using h) hx1
    exact ih (fun hc => hx (List.mem_cons_of_mem x hc)) this

/-- Inversion at `<`: a safe string starting with `<` starts with a
whole tag. -/
theorem safe_lt_inv {cs : List Char} (h : Safe ('<' :: cs)) :
    ∃ t u, t ∈ allowedTags ∧ '<' :: cs = t ++ u ∧ Safe u := by
  generalize hs : '<' :: cs = s at h
  cases h with
  | nil => exact absurd hs (List.cons_ne_nil _ _)
  | chr c' cs' h1 h2 htail =>
    obtain ⟨h3, _⟩ := List.cons_eq_cons.mp hs
    exact absurd h3.symm h1
  | tag t u ht hu => exact ⟨t, u, ht, by first | exact hs | rfl, hu⟩

/-- Splitting a safe string at an occurrence of a separator whose first
character occurs in no tag (and which contains no `<`): both sides of
the occurrence are safe.  Separator occurrences can neither lie inside
a tag (first character) nor straddle one (a tag's `<` would be inside
the separator). -/
theorem safe_split (s0 : Char) (sep' : List Char)
    (hs0 : ∀ t ∈ allowedTags, s0 ∉ t) (hlt : '<' ∉ s0 :: sep') :
    ∀ (n : Nat) (cap rest : List Char), cap.length ≤ n →
      Safe (cap ++ (s0 :: sep') ++ rest) → Safe cap ∧ Safe rest := by
  intro n
  induction n with
  | zero =>
    intro cap rest hlen h
    have hcap : cap = [] := List.length_eq_zero.mp (Nat.le_zero.mp hlen)
    subst hcap
    simp only [List.nil_append] at h
    exact ⟨Safe.nil, safe_peel hlt h⟩
  | succ n ih =>
    intro cap rest hlen h
    match cap with
    | [] =>
      simp only [List.nil_append] at h
      exact ⟨Safe.nil, safe_peel hlt h⟩
    | c :: cap' =>
      by_cases hc : c = '<'
      · subst hc
        obtain ⟨t, u, ht, heq, hu⟩ := safe_lt_inv (by simpa using h)
        have heq' : ('<' :: cap') ++ ((s0 :: sep') ++ rest) = t ++ u := by
          simpa using heq
        by_cases hlen2 : t.length ≤ ('<' :: cap').length
        · have hsplit : ('<' :: cap') ++ ((s0 :: sep') ++ rest) =
              ('<' :: cap').take t.length ++
                (('<' :: cap').drop t.length ++ ((s0 :: sep') ++ rest)) := by
            conv_rhs => rw [← List.append_assoc]
            rw [List.take_append_drop]
          have hlen3 : t.length = (('<' :: cap').take t.length).length := by
            rw [List.length_take]
            omega
          obtain ⟨hteq, hueq⟩ := List.append_inj (heq'.symm.trans hsplit) hlen3
          have htpos : 0 < t.length :=
            List.length_pos.mpr (allowedTags_ne_nil t ht)
          have hdroplen : (('<' :: cap').drop t.length).length ≤ n := by
            rw [List.length_drop]
            simp only [List.length_cons] at hlen ⊢
            omega
          have hu' : Safe (('<' :: cap').drop t.length ++ ((s0 :: sep') ++ rest)) := by
            rw [← hueq]; exact hu
          obtain ⟨h1, h2⟩ := ih (('<' :: cap').drop t.length) rest hdroplen (by simpa using hu')
          refine ⟨?_, h2⟩
          have hrecon : t ++ ('<' :: cap').drop t.length = '<' :: cap' := by
            nth_rewrite 1 [hteq]
            exact List.take_append_drop _ _
          rw [← hrecon]
          exact Safe.tag t _ ht h1
        · exfalso
          push_neg at hlen2
          have htake := congrArg (List.take t.length) heq'
          rw [List.take_append_eq_append_take,
            List.take_of_length_le (Nat.le_of_lt hlen2),
            List.take_left] at htake
          have hk : t.length - ('<' :: cap').length =
              (t.length - ('<' :: cap').length - 1) + 1 := by omega
          have hs0mem : s0 ∈ List.take (t.length - ('<' :: cap').length) (s0 :: (sep' ++ rest)) := by
            rw [hk, List.take_succ_cons]
            exact List.mem_cons_self _ _
          have : s0 ∈ t := by
            rw [← htake]
            exact List.mem_append_right _ hs0mem
          exact hs0 t ht this
      · have h' : Safe (cap' ++ (s0 :: sep') ++ rest) :=
          safe_cons_elim (by simpa using h) hc
        have hgt : c ≠ '>' := safe_head_ne_gt (by simpa using h)
        have hlen' : cap'.length ≤ n := by
          simp only [List.length_cons] at hlen
          omega
        obtain ⟨h1, h2⟩ := ih cap' rest hlen' h'
        exact ⟨Safe.chr c cap' hc hgt h1, h2⟩

/-- The split lemma at the natural statement. -/
theorem safe_split' (s0 : Char) (sep' : List Char)
    (hs0 : ∀ t ∈ allowedTags, s0 ∉ t) (hlt : '<' ∉ s0 :: sep')
    {cap rest : List Char} (h : Safe (cap ++ (s0 :: sep') ++ rest)) :
    Safe cap ∧ Safe rest :=
  safe_split s0 sep' hs0 hlt cap.length cap rest (Nat.le_refl _) h

theorem safe_tag_of_mem {t : List Char} (ht : t ∈ allowedTags) : Safe t := by
  have := Safe.tag t [] ht Safe.nil
  simpa using this

theorem safe_replaceAllF (s0 : Char) (sep' : List Char)
    (hs0 : ∀ t ∈ allowedTags, s0 ∉ t) (hlt : '<' ∉ s0 :: sep')
    (ins : List Char) (hins : Safe ins) :
    ∀ (f : Nat) (cs : List Char), Safe cs → Safe (replaceAllF (s0 :: sep') ins f cs) := by
  intro f
  induction f with
  | zero => intro cs h; exact h
  | succ f ih =>
    intro cs h
    simp only [replaceAllF]
    split
    · exact h
    · rename_i pre rest hr heq
      obtain ⟨h1, h2⟩ := safe_split' s0 sep' hs0 hlt (hr ▸ h)
      exact safe_append (safe_append h1 hins) (ih rest h2)

theorem safe_expandMarkedF (s0 : Char) (sep' : List Char) (t0 : Char) (tail' : List Char)
    (hs0 : ∀ t ∈ allowedTags, s0 ∉ t) (hlt : '<' ∉ s0 :: sep')
    (ht0 : ∀ t ∈ allowedTags, t0 ∉ t) (hlt2 : '<' ∉ t0 :: tail')
    (tagOpen tagClose : List Char)
    (hto : tagOpen ∈ allowedTags) (htc : tagClose ∈ allowedTags) :
    ∀ (f : Nat) (cs : List Char), Safe cs →
      Safe (expandMarkedF (s0 :: sep') (t0 :: tail') tagOpen tagClose f cs) := by
  intro f
  induction f with
  | zero => intro cs h; exact h
  | succ f ih =>
    intro cs h
    simp only [expandMarkedF]
    split
    · exact h
    · rename_i pre mid hr heq
      split
      · exact h
      · rename_i cap rest hr2 heq2
        obtain ⟨h1, h2⟩ := safe_split' s0 sep' hs0 hlt (hr ▸ h)
        obtain ⟨h3, h4⟩ := safe_split' t0 tail' ht0 hlt2 (hr2 ▸ h2)
        exact safe_append
          (safe_append (safe_append (safe_append h1 (safe_tag_of_mem hto)) h3)
            (safe_tag_of_mem htc))
          (ih rest h4)

theorem escapeChar_no_angle (c : Char) : ∀ x ∈ escapeChar c, x ≠ '<' ∧ x ≠ '>' := by
  unfold escapeChar
  split_ifs with h1 h2 h3 h4 h5
  · decide
  · decide
  · decide
  · decide
  · decide
  · intro x hx
    rcases List.mem_singleton.mp hx with rfl
    exact ⟨h2, h3⟩

theorem safe_html_escape (cs : List Char) : Safe (html_escape cs) := by
  apply safe_of_no_angle
  intro c hc
  simp only [html_escape, List.mem_flatten, List.mem_map] at hc
  obtain ⟨piece, ⟨x, _, rfl⟩, hcp⟩ := hc
  exact escapeChar_no_angle x c hcp

theorem digitChar_ne_lt (m : Nat) : Nat.digitChar m ≠ '<' := by
  by_cases h : m < 16
  · interval_cases m <;> decide
  · have h16 : Nat.digitChar m = '*' := by
      simp only [Nat.digitChar]
      have h0 : ¬ m = 0 := by omega
      have h1 : ¬ m = 1 := by omega
      have h2 : ¬ m = 2 := by omega
      have h3 : ¬ m = 3 := by omega
      have h4 : ¬ m = 4 := by omega
      have h5 : ¬ m = 5 := by omega
      have h6 : ¬ m = 6 := by omega
      have h7 : ¬ m = 7 := by omega
      have h8 : ¬ m = 8 := by omega
      have h9 : ¬ m = 9 := by omega
      have ha : ¬ m = 10 := by omega
      have hb : ¬ m = 11 := by omega
      have hc : ¬ m = 12 := by omega
      have hd : ¬ m = 13 := by omega
      have he : ¬ m = 14 := by omega
      have hf : ¬ m = 15 := by omega
      simp only [h0, h1, h2, h3, h4, h5, h6, h7, h8, h9, ha, hb, hc, hd, he, hf, if_false]
    rw [h16]
    decide

theorem toDigitsCore_ne_lt (b : Nat) :
    ∀ (fuel n : Nat) (acc : List Char), (∀ c ∈ acc, c ≠ '<') →
      ∀ c ∈ Nat.toDigitsCore b fuel n acc, c ≠ '<' := by
  intro fuel
  induction fuel with
  | zero => intro n acc hacc c hc; exact hacc c hc
  | succ fuel ih =>
    intro n acc hacc c hc
    simp only [Nat.toDigitsCore] at hc
    by_cases h : n / b = 0
    · rw [if_pos h] at hc
      rcases List.mem_cons.mp hc with rfl | hc'
      · exact digitChar_ne_lt _
      · exact hacc c hc'
    · rw [if_neg h] at hc
      refine ih _ _ ?_ c hc
      intro x hx
      rcases List.mem_cons.mp hx with rfl | hx'
      · exact digitChar_ne_lt _
      · exact hacc x hx'

theorem codeMarker_eq_cons (i : Nat) :
    codeMarker i = '@' :: ("@CODE".data ++ (toString i).data ++ "@@".data) := rfl

theorem codeMarker_no_lt (i : Nat) : '<' ∉ '@' :: ("@CODE".data ++ (toString i).data ++ "@@".data) := by
  intro h
  rcases List.mem_cons.mp h with h | h
  · exact absurd h (by decide)
  rcases List.mem_append.mp h with h | h
  rcases List.mem_append.mp h with h | h
  · revert h; decide
  · have hd : (toString i).data = Nat.toDigits 10 i := rfl
    rw [hd] at h
    exact toDigitsCore_ne_lt 10 _ _ _ (by intro x hx; cases hx) '<' h rfl
  · revert h; decide

/-- Scanning an asterisk-free block (such as a tag) leaves it unchanged:
either the fuel runs out inside the block (then nothing at all changes),
or scanning resumes after the block with strictly less fuel. -/
theorem boldSubF_jump : ∀ (x : List Char), '*' ∉ x → x ≠ [] →
    ∀ (f : Nat) (cs : List Char),
      boldSubF f (x ++ cs) = x ++ cs ∨
        ∃ f' < f, boldSubF f (x ++ cs) = x ++ boldSubF f' cs := by
  intro x
  induction x with
  | nil => intro _ hne; exact absurd rfl hne
  | cons a x ih =>
    intro hmem _ f cs
    have ha : a ≠ '*' := fun h => hmem (h ▸ List.mem_cons_self a x)
    match f with
    | 0 => exact Or.inl rfl
    | f + 1 =>
      have hstep : boldSubF (f + 1) (a :: (x ++ cs)) = a :: boldSubF f (x ++ cs) := by
        simp only [boldSubF]
        rw [if_neg ha]
      by_cases hx : x = []
      · subst hx
        right
        exact ⟨f, Nat.lt_succ_self f, by simpa using hstep⟩
      · rcases ih (fun h => hmem (List.mem_cons_of_mem a h)) hx f cs with heq | ⟨f', hf', heq⟩
        · left
          rw [List.cons_append, hstep, heq]
        · right
          exact ⟨f', Nat.lt_succ_of_lt hf', by rw [List.cons_append, hstep, heq, List.cons_append]⟩

theorem safe_boldSubF : ∀ (f : Nat) (cs : List Char), Safe cs → Safe (boldSubF f cs) := by
  intro f
  induction f using Nat.strong_induction_on with
  | _ f ih =>
    intro cs h
    match f with
    | 0 => exact h
    | f + 1 =>
      match cs with
      | [] => exact Safe.nil
      | c :: cs' =>
        by_cases hc : c = '<'
        · subst hc
          obtain ⟨t, u, ht, heq, hu⟩ := safe_lt_inv h
          rw [heq]
          rcases boldSubF_jump t (allowedTags_no_star t ht) (allowedTags_ne_nil t ht)
              (f + 1) u with h1 | ⟨f', hf', h1⟩
          · rw [h1, ← heq]
            exact h
          · rw [h1]
            exact Safe.tag t _ ht (ih f' hf' u hu)
        · have hsafe' : Safe cs' := safe_cons_elim h hc
          have hgt : c ≠ '>' := safe_head_ne_gt h
          by_cases hcs : c = '*'
          · subst hcs
            match cs' with
            | [] =>
              show Safe (boldSubF (f + 1) ['*'])
              have : boldSubF (f + 1) ['*'] = ['*'] := by
                simp only [boldSubF, if_true]
              rw [this]
              exact Safe.chr '*' [] (by decide) (by decide) Safe.nil
            | c2 :: cs2 =>
              by_cases hc2 : c2 = '*'
              · subst hc2
                cases hfb : findBoldClose cs2 with
                | none =>
                  have hred : boldSubF (f + 1) ('*' :: '*' :: cs2) =
                      '*' :: boldSubF f ('*' :: cs2) := by
                    simp only [boldSubF, if_true]
                    rw [hfb]
                  rw [hred]
                  exact Safe.chr '*' _ (by decide) (by decide) (ih f (Nat.lt_succ_self f) _ hsafe')
                | some x =>
                  obtain ⟨cap, rest, hr, hcapne⟩ := x
                  have hred : boldSubF (f + 1) ('*' :: '*' :: cs2) =
                      tagBoldOpen ++ cap ++ tagBoldClose ++ boldSubF f rest := by
                    simp only [boldSubF, if_true]
                    rw [hfb]
                  rw [hred]
                  have hsafe2 : Safe cs2 := safe_cons_elim hsafe' (by decide)
                  have hsplit : Safe (cap ++ ('*' :: ['*']) ++ rest) := by
                    have : cap ++ ('*' :: ['*']) ++ rest = cap ++ '*' :: '*' :: rest := by
                      simp
                    rw [this, ← hr]
                    exact hsafe2
                  obtain ⟨hcap, hrest⟩ :=
                    safe_split' '*' ['*'] allowedTags_no_star (by decide) hsplit
                  exact safe_append
                    (safe_append
                      (safe_append (safe_tag_of_mem (by simp [allowedTags])) hcap)
                      (safe_tag_of_mem (by simp [allowedTags])))
                    (ih f (Nat.lt_succ_self f) rest hrest)
              · have hred : boldSubF (f + 1) ('*' :: c2 :: cs2) =
                    '*' :: boldSubF f (c2 :: cs2) := by
                  simp [boldSubF, hc2]
                rw [hred]
                exact Safe.chr '*' _ (by decide) (by decide) (ih f (Nat.lt_succ_self f) _ hsafe')
          · have hred : boldSubF (f + 1) (c :: cs') = c :: boldSubF f cs' := by
              simp only [boldSubF]
              rw [if_neg hcs]
            rw [hred]
            exact Safe.chr c _ hc hgt (ih f (Nat.lt_succ_self f) cs' hsafe')

theorem codeSpanSubF_jump : ∀ (x : List Char), '`' ∉ x → x ≠ [] →
    ∀ (f : Nat) (cs : List Char),
      codeSpanSubF f (x ++ cs) = x ++ cs ∨
        ∃ f' < f, codeSpanSubF f (x ++ cs) = x ++ codeSpanSubF f' cs := by
  intro x
  induction x with
  | nil => intro _ hne; exact absurd rfl hne
  | cons a x ih =>
    intro hmem _ f cs
    have ha : a ≠ '`' := fun h => hmem (h ▸ List.mem_cons_self a x)
    match f with
    | 0 => exact Or.inl rfl
    | f + 1 =>
      have hstep : codeSpanSubF (f + 1) (a :: (x ++ cs)) = a :: codeSpanSubF f (x ++ cs) := by
        simp only [codeSpanSubF]
        rw [if_neg ha]
      by_cases hx : x = []
      · subst hx
        right
        exact ⟨f, Nat.lt_succ_self f, by simpa using hstep⟩
      · rcases ih (fun h => hmem (List.mem_cons_of_mem a h)) hx f cs with heq | ⟨f', hf', heq⟩
        · left
          rw [List.cons_append, hstep, heq]
        · right
          exact ⟨f', Nat.lt_succ_of_lt hf', by rw [List.cons_append, hstep, heq, List.cons_append]⟩

theorem safe_codeSpanSubF : ∀ (f : Nat) (cs : List Char), Safe cs → Safe (codeSpanSubF f cs) := by
  intro f
  induction f using Nat.strong_induction_on with
  | _ f ih =>
    intro cs h
    match f with
    | 0 => exact h
    | f + 1 =>
      match cs with
      | [] => exact Safe.nil
      | c :: cs' =>
        by_cases hc : c = '<'
        · subst hc
          obtain ⟨t, u, ht, heq, hu⟩ := safe_lt_inv h
          rw [heq]
          rcases codeSpanSubF_jump t (allowedTags_no_tick t ht) (allowedTags_ne_nil t ht)
              (f + 1) u with h1 | ⟨f', hf', h1⟩
          · rw [h1, ← heq]
            exact h
          · rw [h1]
            exact Safe.tag t _ ht (ih f' hf' u hu)
        · have hsafe' : Safe cs' := safe_cons_elim h hc
          have hgt : c ≠ '>' := safe_head_ne_gt h
          by_cases hcs : c = '`'
          · subst hcs
            cases hft : findTickClose cs' with
            | none =>
              have hred : codeSpanSubF (f + 1) ('`' :: cs') = '`' :: codeSpanSubF f cs' := by
                simp only [codeSpanSubF, if_true]
                rw [hft]
              rw [hred]
              exact Safe.chr '`' _ (by decide) (by decide) (ih f (Nat.lt_succ_self f) _ hsafe')
            | some x =>
              obtain ⟨cap, rest, hr, hcapne⟩ := x
              have hred : codeSpanSubF (f + 1) ('`' :: cs') =
                  tagCodeOpen ++ cap ++ tagCodeClose ++ codeSpanSubF f rest := by
                simp only [codeSpanSubF, if_true]
                rw [hft]
              rw [hred]
              have hsplit : Safe (cap ++ ('`' :: []) ++ rest) := by
                have heq2 : cap ++ ('`' :: []) ++ rest = cap ++ '`' :: rest := by simp
                rw [heq2, ← hr]
                exact hsafe'
              obtain ⟨hcap, hrest⟩ :=
                safe_split' '`' [] allowedTags_no_tick (by decide) hsplit
              exact safe_append
                (safe_append
                  (safe_append (safe_tag_of_mem (by simp [allowedTags])) hcap)
                  (safe_tag_of_mem (by simp [allowedTags])))
                (ih f (Nat.lt_succ_self f) rest hrest)
          · have hred : codeSpanSubF (f + 1) (c :: cs') = c :: codeSpanSubF f cs' := by
              simp only [codeSpanSubF]
              rw [if_neg hcs]
            rw [hred]
            exact Safe.chr c _ hc hgt (ih f (Nat.lt_succ_self f) cs' hsafe')

theorem italicSubF_jump : ∀ (x : List Char), '*' ∉ x → x ≠ [] →
    ∀ (f : Nat) (prev : Option Char) (cs : List Char),
      italicSubF f prev (x ++ cs) = x ++ cs ∨
        ∃ f' < f, ∃ prev', italicSubF f prev (x ++ cs) = x ++ italicSubF f' prev' cs := by
  intro x
  induction x with
  | nil => intro _ hne; exact absurd rfl hne
  | cons a x ih =>
    intro hmem _ f prev cs
    have ha : a ≠ '*' := fun h => hmem (h ▸ List.mem_cons_self a x)
    match f with
    | 0 => exact Or.inl rfl
    | f + 1 =>
      have hstep : italicSubF (f + 1) prev (a :: (x ++ cs)) =
          a :: italicSubF f (some a) (x ++ cs) := by
        simp only [italicSubF]
        rw [if_neg (by simp [ha])]
      by_cases hx : x = []
      · subst hx
        right
        exact ⟨f, Nat.lt_succ_self f, some a, by simpa using hstep⟩
      · rcases ih (fun h => hmem (List.mem_cons_of_mem a h)) hx f (some a) cs with
          heq | ⟨f', hf', prev', heq⟩
        · left
          rw [List.cons_append, hstep, heq]
        · right
          exact ⟨f', Nat.lt_succ_of_lt hf', prev',
            by rw [List.cons_append, hstep, heq, List.cons_append]⟩

theorem safe_italicSubF : ∀ (f : Nat) (prev : Option Char) (cs : List Char),
    Safe cs → Safe (italicSubF f prev cs) := by
  intro f
  induction f using Nat.strong_induction_on with
  | _ f ih =>
    intro prev cs h
    match f with
    | 0 => exact h
    | f + 1 =>
      match cs with
      | [] => exact Safe.nil
      | c :: cs' =>
        by_cases hc : c = '<'
        · subst hc
          obtain ⟨t, u, ht, heq, hu⟩ := safe_lt_inv h
          rw [heq]
          rcases italicSubF_jump t (allowedTags_no_star t ht) (allowedTags_ne_nil t ht)
              (f + 1) prev u with h1 | ⟨f', hf', prev', h1⟩
          · rw [h1, ← heq]
            exact h
          · rw [h1]
            exact Safe.tag t _ ht (ih f' hf' prev' u hu)
        · have hsafe' : Safe cs' := safe_cons_elim h hc
          have hgt : c ≠ '>' := safe_head_ne_gt h
          by_cases hcond : (c = '*' && prev != some '*' && cs'.head? != some '*') = true
          · cases hfi : findItalClose cs' with
            | none =>
              have hred : italicSubF (f + 1) prev (c :: cs') =
                  c :: italicSubF f (some c) cs' := by
                simp only [italicSubF]
                rw [if_pos hcond, hfi]
              rw [hred]
              exact Safe.chr c _ hc hgt
                (ih f (Nat.lt_succ_self f) (some c) _ hsafe')
            | some x =>
              obtain ⟨cap, rest, hr, hcapne, hheadne⟩ := x
              have hred : italicSubF (f + 1) prev (c :: cs') =
                  tagItalOpen ++ cap ++ tagItalClose ++ italicSubF f (some '*') rest := by
                simp only [italicSubF]
                rw [if_pos hcond, hfi]
              rw [hred]
              have hsplit : Safe (cap ++ ('*' :: []) ++ rest) := by
                have heq2 : cap ++ ('*' :: []) ++ rest = cap ++ '*' :: rest := by simp
                rw [heq2, ← hr]
                exact hsafe'
              obtain ⟨hcap, hrest⟩ :=
                safe_split' '*' [] allowedTags_no_star (by decide) hsplit
              exact safe_append
                (safe_append
                  (safe_append (safe_tag_of_mem (by simp [allowedTags])) hcap)
                  (safe_tag_of_mem (by simp [allowedTags])))
                (ih f (Nat.lt_succ_self f) (some '*') rest hrest)
          · have hred : italicSubF (f + 1) prev (c :: cs') =
                c :: italicSubF f (some c) cs' := by
              simp only [italicSubF]
              rw [if_neg hcond]
            rw [hred]
            exact Safe.chr c _ hc hgt (ih f (Nat.lt_succ_self f) (some c) cs' hsafe')

theorem takeWhile_append_of_witness (p : Char → Bool) :
    ∀ (x cs : List Char), (∃ b ∈ x, p b = false) →
      (x ++ cs).takeWhile p = x.takeWhile p ∧ (x ++ cs).dropWhile p = x.dropWhile p ++ cs := by
  intro x
  induction x with
  | nil => intro cs h; simp at h
  | cons b x ih =>
    intro cs h
    by_cases hpb : p b
    · have hx : ∃ c ∈ x, p c = false := by
        obtain ⟨c, hc, hpc⟩ := h
        rcases List.mem_cons.mp hc with rfl | hc'
        · rw [hpb] at hpc; cases hpc
        · exact ⟨c, hc', hpc⟩
      obtain ⟨h1, h2⟩ := ih cs hx
      constructor
      · rw [List.cons_append, List.takeWhile_cons_of_pos hpb,
          List.takeWhile_cons_of_pos hpb, h1]
      · rw [List.cons_append, List.dropWhile_cons_of_pos hpb,
          List.dropWhile_cons_of_pos hpb, h2]
    · constructor
      · rw [List.cons_append, List.takeWhile_cons_of_neg hpb,
          List.takeWhile_cons_of_neg hpb]
      · rw [List.cons_append, List.dropWhile_cons_of_neg hpb,
          List.dropWhile_cons_of_neg hpb, List.cons_append]

theorem safe_dropWhile_ws {cs : List Char} (h : Safe cs) : Safe (cs.dropWhile isPyWS) := by
  induction h with
  | nil => exact Safe.nil
  | chr c cs h1 h2 htail ih =>
    by_cases hws : isPyWS c
    · rw [List.dropWhile_cons_of_pos hws]
      exact ih
    · rw [List.dropWhile_cons_of_neg hws]
      exact Safe.chr c cs h1 h2 htail
  | tag t cs ht htail ih =>
    match t, allowedTags_ne_nil t ht with
    | d :: t', _ =>
      have hd : d = '<' := by
        have := allowedTags_head _ ht
        simpa using this
      rw [List.cons_append, List.dropWhile_cons_of_neg (by rw [hd]; decide)]
      exact Safe.tag (d :: t') cs ht htail

theorem getLast?_cons_of_ne_nil {a : Char} {x : List Char} (hx : x ≠ []) :
    (a :: x).getLast? = x.getLast? := by
  match x, hx with
  | b :: l, _ => exact List.getLast?_cons_cons

theorem collapseBlankRunsF_jump :
    ∀ (n : Nat) (x : List Char), x.length ≤ n → x ≠ [] → '\n' ∉ x →
      (∀ g, x.getLast? = some g → isPyWS g = false) →
      ∀ (f : Nat) (cs : List Char),
        collapseBlankRunsF f (x ++ cs) = x ++ cs ∨
          ∃ f' < f, collapseBlankRunsF f (x ++ cs) = x ++ collapseBlankRunsF f' cs := by
  intro n
  induction n with
  | zero =>
    intro x hlen hne
    exact absurd (List.length_eq_zero.mp (Nat.le_zero.mp hlen)) hne
  | succ n ih =>
    intro x hlen hne hnl hlast f cs
    match x, hne with
    | a :: x', _ =>
      match f with
      | 0 => exact Or.inl rfl
      | f + 1 =>
        by_cases hws : isPyWS a
        · have hx' : x' ≠ [] := by
            intro h0
            subst h0
            have := hlast a (by simp)
            rw [hws] at this
            cases this
          have hlast' : ∀ g, x'.getLast? = some g → isPyWS g = false := by
            intro g hg
            apply hlast
            rw [getLast?_cons_of_ne_nil hx']
            exact hg
          have hwit : ∃ b ∈ x', isPyWS b = false := by
            refine ⟨x'.getLast hx', List.getLast_mem hx', ?_⟩
            exact hlast' _ (List.getLast?_eq_getLast x' hx')
          obtain ⟨htw, hdw⟩ := takeWhile_append_of_witness isPyWS x' cs hwit
          have hcount : ((a :: x'.takeWhile isPyWS).count '\n') = 0 := by
            rw [List.count_eq_zero]
            intro hmem
            rcases List.mem_cons.mp hmem with hh | hh
            · exact hnl (by rw [hh]; exact List.mem_cons_self a x')
            · exact hnl
                (List.mem_cons_of_mem a ((List.takeWhile_prefix isPyWS).subset hh))
          have hred : collapseBlankRunsF (f + 1) ((a :: x') ++ cs) =
              (a :: x'.takeWhile isPyWS) ++
                collapseBlankRunsF f (x'.dropWhile isPyWS ++ cs) := by
            simp only [List.cons_append, collapseBlankRunsF, List.append_eq]
            rw [if_pos hws, htw, hdw, hcount]
            rw [if_neg (by decide)]
          have hdne : x'.dropWhile isPyWS ≠ [] := by
            intro h0
            obtain ⟨b, hb, hpb⟩ := hwit
            have := List.dropWhile_eq_nil_iff.mp h0 b hb
            rw [hpb] at this
            cases this
          have hdlen : (x'.dropWhile isPyWS).length ≤ n := by
            have h1 := (List.dropWhile_sublist (l := x') (p := isPyWS)).length_le
            simp only [List.length_cons] at hlen
            omega
          have hdnl : '\n' ∉ x'.dropWhile isPyWS := fun hh =>
            hnl (List.mem_cons_of_mem a ((List.dropWhile_sublist isPyWS).subset hh))
          have hdlast : ∀ g, (x'.dropWhile isPyWS).getLast? = some g → isPyWS g = false := by
            intro g hg
            apply hlast'
            rw [← getLast?_dropWhile isPyWS x' hdne]
            exact hg
          have hrecon : (a :: x'.takeWhile isPyWS) ++ x'.dropWhile isPyWS = a :: x' := by
            rw [List.cons_append, List.takeWhile_append_dropWhile]
          rcases ih (x'.dropWhile isPyWS) hdlen hdne hdnl hdlast f cs with hcase | ⟨f', hf', hcase⟩
          · left
            rw [hred, hcase, ← List.append_assoc, hrecon]
          · right
            refine ⟨f', Nat.lt_succ_of_lt hf', ?_⟩
            rw [hred, hcase, ← List.append_assoc, hrecon]
        · have hred : collapseBlankRunsF (f + 1) ((a :: x') ++ cs) =
              a :: collapseBlankRunsF f (x' ++ cs) := by
            simp only [List.cons_append, collapseBlankRunsF, List.append_eq]
            rw [if_neg hws]
          by_cases hx' : x' = []
          · subst hx'
            right
            exact ⟨f, Nat.lt_succ_self f, by simpa using hred⟩
          · have hlast' : ∀ g, x'.getLast? = some g → isPyWS g = false := by
              intro g hg
              apply hlast
              rw [getLast?_cons_of_ne_nil hx']
              exact hg
            have hnl' : '\n' ∉ x' := fun hh => hnl (List.mem_cons_of_mem a hh)
            have hlen' : x'.length ≤ n := by
              simp only [List.length_cons] at hlen
              omega
            rcases ih x' hlen' hx' hnl' hlast' f cs with hcase | ⟨f', hf', hcase⟩
            · left
              rw [List.cons_append] at hred ⊢
              rw [hred, hcase]
            · right
              refine ⟨f', Nat.lt_succ_of_lt hf', ?_⟩
              rw [List.cons_append] at hred ⊢
              rw [hred, hcase, List.cons_append]

theorem safe_collapseBlankRunsF :
    ∀ (f : Nat) (cs : List Char), Safe cs → Safe (collapseBlankRunsF f cs) := by
  intro f
  induction f using Nat.strong_induction_on with
  | _ f ih =>
    intro cs h
    match f with
    | 0 => exact h
    | f + 1 =>
      match cs with
      | [] => exact Safe.nil
      | c :: cs' =>
        by_cases hc : c = '<'
        · subst hc
          obtain ⟨t, u, ht, heq, hu⟩ := safe_lt_inv h
          rw [heq]
          have hlast : ∀ g, t.getLast? = some g → isPyWS g = false := by
            intro g hg
            rw [allowedTags_last t ht] at hg
            rw [← Option.some_inj.mp hg]
            decide
          rcases collapseBlankRunsF_jump t.length t (Nat.le_refl _)
              (allowedTags_ne_nil t ht) (allowedTags_no_nl t ht) hlast (f + 1) u with
            h1 | ⟨f', hf', h1⟩
          · rw [h1, ← heq]
            exact h
          · rw [h1]
            exact Safe.tag t _ ht (ih f' hf' u hu)
        · have hsafe' : Safe cs' := safe_cons_elim h hc
          have hgt : c ≠ '>' := safe_head_ne_gt h
          by_cases hws : isPyWS c
          · have hrest : Safe (cs'.dropWhile isPyWS) := safe_dropWhile_ws hsafe'
            have hrun : ∀ d ∈ c :: cs'.takeWhile isPyWS, d ≠ '<' ∧ d ≠ '>' := by
              intro d hd
              have hdws : isPyWS d = true := by
                rcases List.mem_cons.mp hd with rfl | hd'
                · exact hws
                · exact List.mem_takeWhile_imp hd'
              constructor
              · intro h0; rw [h0] at hdws; cases hdws
              · intro h0; rw [h0] at hdws; cases hdws
            have hrec : Safe (collapseBlankRunsF f (cs'.dropWhile isPyWS)) :=
              ih f (Nat.lt_succ_self f) _ hrest
            by_cases hcount : 3 ≤ (c :: cs'.takeWhile isPyWS).count '\n'
            · have hred : collapseBlankRunsF (f + 1) (c :: cs') =
                  '\n' :: '\n' :: (afterLastNL (c :: cs'.takeWhile isPyWS) ++
                    collapseBlankRunsF f (cs'.dropWhile isPyWS)) := by
                simp only [collapseBlankRunsF]
                rw [if_pos hws, if_pos hcount]
              rw [hred]
              refine Safe.chr '\n' _ (by decide) (by decide) ?_
              refine Safe.chr '\n' _ (by decide) (by decide) ?_
              refine safe_append (safe_of_no_angle ?_) hrec
              intro d hd
              apply hrun
              have h1 : d ∈ (c :: cs'.takeWhile isPyWS).reverse.takeWhile (· != '\n') := by
                rw [afterLastNL] at hd
                exact (List.mem_reverse).mp hd
              have h2 : d ∈ (c :: cs'.takeWhile isPyWS).reverse :=
                (List.takeWhile_prefix _).subset h1
              exact (List.mem_reverse).mp h2
            · have hred : collapseBlankRunsF (f + 1) (c :: cs') =
                  (c :: cs'.takeWhile isPyWS) ++
                    collapseBlankRunsF f (cs'.dropWhile isPyWS) := by
                simp only [collapseBlankRunsF]
                rw [if_pos hws, if_neg hcount]
              rw [hred]
              exact safe_append (safe_of_no_angle hrun) hrec
          · have hred : collapseBlankRunsF (f + 1) (c :: cs') =
                c :: collapseBlankRunsF f cs' := by
              simp only [collapseBlankRunsF]
              rw [if_neg hws]
            rw [hred]
            exact Safe.chr c _ hc hgt (ih f (Nat.lt_succ_self f) cs' hsafe')

theorem safe_replaceAll (s0 : Char) (sep' : List Char)
    (hs0 : ∀ t ∈ allowedTags, s0 ∉ t) (hlt : '<' ∉ s0 :: sep')
    (ins : List Char) (hins : Safe ins) (cs : List Char) (h : Safe cs) :
    Safe (replaceAll (s0 :: sep') ins cs) :=
  safe_replaceAllF s0 sep' hs0 hlt ins hins (cs.length + 1) cs h

theorem safe_expandMarked (s0 : Char) (sep' : List Char) (t0 : Char) (tail' : List Char)
    (hs0 : ∀ t ∈ allowedTags, s0 ∉ t) (hlt : '<' ∉ s0 :: sep')
    (ht0 : ∀ t ∈ allowedTags, t0 ∉ t) (hlt2 : '<' ∉ t0 :: tail')
    (tagOpen tagClose : List Char)
    (hto : tagOpen ∈ allowedTags) (htc : tagClose ∈ allowedTags)
    (cs : List Char) (h : Safe cs) :
    Safe (expandMarked (s0 :: sep') (t0 :: tail') tagOpen tagClose cs) :=
  safe_expandMarkedF s0 sep' t0 tail' hs0 hlt ht0 hlt2 tagOpen tagClose hto htc
    (cs.length + 1) cs h

theorem safe_boldSub (cs : List Char) (h : Safe cs) : Safe (boldSub cs) :=
  safe_boldSubF (cs.length + 1) cs h

theorem safe_italicSub (cs : List Char) (h : Safe cs) : Safe (italicSub cs) :=
  safe_italicSubF (cs.length + 1) none cs h

theorem safe_codeSpanSub (cs : List Char) (h : Safe cs) : Safe (codeSpanSub cs) :=
  safe_codeSpanSubF (cs.length + 1) cs h

theorem safe_collapseBlankRuns (cs : List Char) (h : Safe cs) : Safe (collapseBlankRuns cs) :=
  safe_collapseBlankRunsF (cs.length + 1) cs h

theorem safe_expandCodeBlocks :
    ∀ (blocks : List (List Char)) (idx : Nat) (cs : List Char),
      Safe cs → Safe (expandCodeBlocks blocks idx cs) := by
  intro blocks
  induction blocks with
  | nil => intro idx cs h; exact h
  | cons cb more ih =>
    intro idx cs h
    simp only [expandCodeBlocks]
    apply ih
    have hins : Safe (tagPreOpen ++ tagCodePlain ++ html_escape cb ++ tagCodeClose ++ tagPreClose) :=
      safe_append
        (safe_append
          (safe_append
            (safe_append (safe_tag_of_mem (by simp [allowedTags]))
              (safe_tag_of_mem (by simp [allowedTags])))
            (safe_html_escape cb))
          (safe_tag_of_mem (by simp [allowedTags])))
        (safe_tag_of_mem (by simp [allowedTags]))
    have hmain := safe_replaceAll '@' ("@CODE".data ++ (toString idx).data ++ "@@".data)
      allowedTags_no_at (codeMarker_no_lt idx) _ hins cs h
    rw [codeMarker_eq_cons idx]
    exact hmain

/-- C2: the render function is injection-safe.  Every angle bracket of
`_format_display_text`'s output lies inside a markup fragment the
pipeline itself emits (`allowedTags`): no unescaped `<` or `>` of the
input survives.  In particular, `render("<script>x</script>")` yields
the escaped entity form, not an executable tag. -/
theorem C2_render_injection_safe :
    (∀ text : String, Safe (format_display_text text).data) ∧
      format_display_text "<script>x</script>" = "&lt;script&gt;x&lt;/script&gt;" := by
  constructor
  · intro text
    rw [format_display_text]
    by_cases ht : text = ""
    · rw [if_pos ht]
      exact Safe.nil
    · rw [if_neg ht]
      apply safe_replaceAll '\n' [] allowedTags_no_nl (by decide) tagBr
        (safe_tag_of_mem (by simp [allowedTags]))
      apply safe_collapseBlankRuns
      apply safe_expandCodeBlocks
      apply safe_codeSpanSub
      apply safe_italicSub
      apply safe_boldSub
      apply safe_replaceAll '@' "@HR@@".data allowedTags_no_at (by decide) tagHr
        (safe_tag_of_mem (by simp [allowedTags]))
      apply safe_expandMarked '@' "@QUOTE@@".data '@' "@ENDQ@@".data
        allowedTags_no_at (by decide) allowedTags_no_at (by decide)
        tagQuoteOpen tagDivClose (by simp [allowedTags]) (by simp [allowedTags])
      apply safe_expandMarked '@' "@HDR@@".data '@' "@ENDHDR@@".data
        allowedTags_no_at (by decide) allowedTags_no_at (by decide)
        tagHdrOpen tagDivClose (by simp [allowedTags]) (by simp [allowedTags])
      exact safe_html_escape _
  · decide

/-- C8: a fenced code block's raw content is shielded from the
structural and inline transforms, escaped independently at re-expansion,
and wrapped in the code-block markup:
`render("```x<y```")` is the `pre`/`code` block holding `x&lt;y`. -/
theorem C8_code_block_escaped :
    format_display_text "```x<y```" =
      "<pre style=\"background:#f6f8fa;padding:8px;border-radius:6px;\"><code>x&lt;y</code></pre>" := by
  decide

